import Mathlib

/-!
Verification development for the pydantic `main.py` core: a shallow
embedding of the schema-driven validation engine (`validate_model`), the
metaclass field-table assembly (`MetaModel.__new__`), configuration
finalization (`set_extra`), guarded attribute assignment
(`BaseModel.__setattr__`), the decoding entry points
(`parse_raw` / `parse_file`), and instance copying
(`BaseModel.copy` / `BaseModel.construct`).

Python dictionaries are embedded as association lists with
replace-in-place-or-append assignment (matching CPython's insertion-order
semantics); machine-level details (hashing) are irrelevant to the claims.
Per-field coercion (`Field.validate` from `fields.py`) is an external
collaborator per the specification and is embedded as an opaque function
component of each field.
-/

namespace Pydantic

/-! ## Ordered dictionaries as association lists -/

/-- First-match lookup, `d.get(k)` / `d[k]` on a Python dict. -/
def getKey {α : Type} : List (String × α) → String → Option α
  | [], _ => none
  | (k0, v0) :: t, k => if k0 = k then some v0 else getKey t k

/-- `d[k] = v` on a Python dict: replace in place if the key exists,
otherwise append, preserving insertion order. -/
def setKey {α : Type} : List (String × α) → String → α → List (String × α)
  | [], k, v => [(k, v)]
  | (k0, v0) :: t, k, v => if k0 = k then (k, v) :: t else (k0, v0) :: setKey t k v

/-- `d.keys()` in insertion order. -/
def keysOf {α : Type} (l : List (String × α)) : List String := l.map Prod.fst

/-- Removal of one key (a Python dict holds each key once). -/
def eraseKey {α : Type} (l : List (String × α)) (k : String) : List (String × α) :=
  l.filter (fun kv => kv.1 ≠ k)

/-! ## Values -/

/-- Python runtime values appearing in input mappings and stored states.
Model instances nested as values are outside this embedded value universe
(no claim depends on them). -/
inductive Value : Type
  | int (n : Int)
  | str (s : String)
  | none_
  | vlist (l : List Value)
  | vdict (d : List (String × Value))

/-- Stored value mappings (`__values__`) and raw input mappings. -/
abbrev VMap := List (String × Value)

mutual

/-- `BaseModel._get_value`: recursively unwrap containers; atoms pass
through unchanged.  (The `BaseModel` branch of the source is outside the
embedded value universe; `set`/`tuple` are collapsed into `vlist`.) -/
def get_value : Value → Value
  | Value.int n => Value.int n
  | Value.str s => Value.str s
  | Value.none_ => Value.none_
  | Value.vlist l => Value.vlist (get_value_list l)
  | Value.vdict d => Value.vdict (get_value_dict d)

def get_value_list : List Value → List Value
  | [] => []
  | v :: t => get_value v :: get_value_list t

def get_value_dict : List (String × Value) → List (String × Value)
  | [] => []
  | (k, v) :: t => (k, get_value v) :: get_value_dict t

end

/-- `copy.deepcopy` on a default value: values are immutable data in this
embedding, so a deep copy is the (equal) value itself.  Aliasing of mutable
mappings is modelled explicitly by the `Heap` further below, where a claim
depends on it. -/
def deepcopy (v : Value) : Value := v

/-! ## Errors -/

/-- Python exception kinds relevant to the decoding entry points:
`parse_raw` catches exactly `ValueError`, `TypeError` and
`UnicodeDecodeError`. -/
inductive Exc : Type
  | valueError
  | typeError
  | unicodeDecodeError
  | otherError (n : Nat)
deriving DecidableEq

/-- Causes carried by an `ErrorWrapper`: the engine's own `MissingError`
and `ExtraError`, wrapped exceptions, and opaque causes produced by the
per-field coercion collaborator. -/
inductive ErrCause : Type
  | missing
  | extra
  | exc (e : Exc)
  | tagged (n : Nat)
deriving DecidableEq

/-- `ErrorWrapper(cause, loc)`: a failure cause qualified by a location. -/
structure ErrorWrapper : Type where
  cause : ErrCause
  loc : String
deriving DecidableEq

/-- The error component returned by the per-field coercion collaborator:
a single `ErrorWrapper` or a list of them (the source distinguishes the
two with `isinstance` checks). -/
inductive FieldError : Type
  | single (e : ErrorWrapper)
  | multi (es : List ErrorWrapper)

/-- Result of `Field.validate(value, values, loc, cls)`:
`(coercedValue, None)` or `(anything, error-or-list)`. -/
inductive FieldResult : Type
  | ok (v : Value)
  | err (e : FieldError)

/-! ## Schema: fields and configuration -/

/-- `Extra` enumeration from the source. -/
inductive Extra : Type
  | allow
  | ignore
  | forbid
deriving DecidableEq

/-- The slice of `BaseConfig` consulted by the embedded operations. -/
structure Config : Type where
  validate_all : Bool := false
  extra : Extra := Extra.ignore
  allow_mutation : Bool := true
  allow_population_by_alias : Bool := false
  validate_assignment : Bool := false

/-- `FieldSpec`: one entry of the model's field table.  `validate` is the
external per-field coercion collaborator; `isForwardRef` embeds
`type(field.type_) == ForwardRef`; `alt_alias` embeds the
`field.alt_alias` flag (alias differs from name). -/
structure Field : Type where
  name : String
  alias_ : String
  alt_alias : Bool := false
  default : Value := Value.none_
  required : Bool := false
  validate_always : Bool := false
  isForwardRef : Bool := false
  validate : Value → VMap → String → FieldResult

/-- A model type's schema as consumed by the engine: the ordered
`__fields__` table (dict key paired with the `Field`) and `__config__`. -/
structure Model : Type where
  fields : List (String × Field)
  config : Config

/-! ## The validation engine: `validate_model` -/

/-- The loop state of `validate_model`: resolved values, aggregated
errors, and the set of consumed input keys. -/
structure VState : Type where
  values : VMap
  errors : List ErrorWrapper
  names_used : List String

def initState : VState := ⟨[], [], []⟩

/-- `names_used.add(k)`: set insertion (membership is what matters). -/
def addName (l : List String) (k : String) : List String :=
  if k ∈ l then l else l ++ [k]

/-- The tail of each loop iteration: run the field's coercion
collaborator; a returned wrapper is appended, a returned list is extended,
a returned value is stored under the dict key `name`. -/
def coerceStep (st : VState) (name : String) (f : Field) (v : Value) : VState :=
  match f.validate v st.values f.alias_ with
  | FieldResult.ok v_ => { st with values := setKey st.values name v_ }
  | FieldResult.err (FieldError.single e) => { st with errors := st.errors ++ [e] }
  | FieldResult.err (FieldError.multi es) => { st with errors := st.errors ++ es }

/-- A value was found in the input (under the alias, or under the name
when population by name applied): mark the matched key consumed when the
extra policy is not `ignore`, then coerce. -/
def handleFound (cfg : Config) (st : VState) (name : String) (f : Field)
    (using_name : Bool) (v : Value) : VState :=
  let st1 :=
    if cfg.extra ≠ Extra.ignore then
      { st with names_used := addName st.names_used (if using_name then f.name else f.alias_) }
    else st
  coerceStep st1 name f v

/-- The value is absent: validate a deep copy of the default when
`validate_all`/`validate_always` applies; otherwise record a missing error
at the alias when required, or store a deep copy of the default. -/
def handleAbsent (cfg : Config) (st : VState) (name : String) (f : Field) : VState :=
  if cfg.validate_all || f.validate_always then
    coerceStep st name f (deepcopy f.default)
  else if f.required then
    { st with errors := st.errors ++ [ErrorWrapper.mk ErrCause.missing f.alias_] }
  else
    { st with values := setKey st.values name (deepcopy f.default) }

/-- One iteration of the `validate_model` loop body (after the
forward-reference check): `input_data.get(field.alias_)`, optional retry
under `field.name`, then the found/absent branches. -/
def fieldStep (cfg : Config) (input : VMap) (st : VState) (nf : String × Field) : VState :=
  match getKey input nf.2.alias_ with
  | some v => handleFound cfg st nf.1 nf.2 false v
  | none =>
    if cfg.allow_population_by_alias && nf.2.alt_alias then
      match getKey input nf.2.name with
      | some v => handleFound cfg st nf.1 nf.2 true v
      | none => handleAbsent cfg st nf.1 nf.2
    else handleAbsent cfg st nf.1 nf.2

/-- The per-field loop of `validate_model`, including the `ConfigError`
raised for a field whose type is still an unresolved forward reference. -/
def runFields (cfg : Config) (input : VMap) :
    List (String × Field) → VState → Except String VState
  | [], st => Except.ok st
  | nf :: rest, st =>
    if nf.2.isForwardRef then
      Except.error ("field " ++ nf.2.name ++ " not yet prepared and type is still a ForwardRef")
    else runFields cfg input rest (fieldStep cfg input st nf)

/-- The same loop on models free of forward references (pure form used by
the theorems; `runFields_eq_runF` relates the two). -/
def runF (cfg : Config) (input : VMap) (fs : List (String × Field)) (st : VState) : VState :=
  fs.foldl (fieldStep cfg input) st

/-- The `if extra:` body of the post-loop pass, over the computed list of
unconsumed keys: under `allow`, copy each unconsumed raw value verbatim;
otherwise (`forbid`), append one `ExtraError` per unconsumed key, sorted
by key.  (CPython iterates the `allow` set in unspecified order; input
order is fixed here, which no claim depends on.) -/
def applyExtraKeys (cfg : Config) (input : VMap) (st : VState) (extra : List String) : VState :=
  if extra.isEmpty then st
  else if cfg.extra = Extra.allow then
    { st with values := extra.foldl (fun vs k => setKey vs k ((getKey input k).getD Value.none_)) st.values }
  else
    { st with errors := st.errors ++
        (List.insertionSort (· ≤ ·) extra).map (fun k => ErrorWrapper.mk ErrCause.extra k) }

/-- The post-loop extra-key pass of `validate_model`:
`extra = input_data.keys() - names_used`, handled per policy when the
policy is not `ignore`. -/
def applyExtra (cfg : Config) (input : VMap) (st : VState) : VState :=
  if cfg.extra ≠ Extra.ignore then
    applyExtraKeys cfg input st ((keysOf input).filter (fun k => ¬ k ∈ st.names_used))
  else st

/-- The errors appended by the extra-key pass, as a standalone function
(used to state the claims; `applyExtra_errors` proves the relation). -/
def extraErrorsOf (cfg : Config) (input : VMap) (used : List String) : List ErrorWrapper :=
  if cfg.extra = Extra.forbid then
    (List.insertionSort (· ≤ ·) ((keysOf input).filter (fun k => ¬ k ∈ used))).map
      (fun k => ErrorWrapper.mk ErrCause.extra k)
  else []

/-- Outcome of `validate_model`: a raised `ConfigError`, a raised
`ValidationError` (when `raise_exc`), the bare values (success with
`raise_exc`), or the `(values, error-or-None)` pair (`raise_exc=False`). -/
inductive VMOut : Type
  | configError (msg : String)
  | raised (errs : List ErrorWrapper)
  | okValues (values : VMap)
  | okPair (values : VMap) (err : Option (List ErrorWrapper))

/-- `validate_model(model, input_data, raise_exc)`. -/
def validate_model (m : Model) (input : VMap) (raise_exc : Bool := true) : VMOut :=
  match runFields m.config input m.fields initState with
  | Except.error msg => VMOut.configError msg
  | Except.ok st0 =>
    let st := applyExtra m.config input st0
    if raise_exc = false then
      VMOut.okPair st.values (if st.errors = [] then none else some st.errors)
    else if st.errors = [] then VMOut.okValues st.values
    else VMOut.raised st.errors

/-- The loop state after both passes, for a forward-reference-free model
(the state `validate_model` reports from). -/
def finalState (m : Model) (input : VMap) : VState :=
  applyExtra m.config input (runF m.config input m.fields initState)

/-! ## Instance projection: `BaseModel.dict` -/

/-- `BaseModel.dict(include, exclude, by_alias=False)` on a stored value
mapping: emit each key not excluded (and included, when an include set is
given), with the value unwrapped by `_get_value`.  The claims only
exercise the default alias mode, so `by_alias=True` key renaming is not
embedded. -/
def dict_ (vals : VMap) (include? : Option (List String)) (exclude : List String) : VMap :=
  vals.filterMap (fun kv =>
    if kv.1 ∈ exclude then none
    else
      match include? with
      | none => some (kv.1, get_value kv.2)
      | some inc => if kv.1 ∈ inc then some (kv.1, get_value kv.2) else none)

/-! ## Guarded mutation: `BaseModel.__setattr__` -/

/-- How a `__setattr__` call terminates. -/
inductive SetOutcome : Type
  | assigned
  | raisedValueError
  | raisedTypeError
  | raisedKeyError
  | raisedValidation (e : FieldError)

/-- `BaseModel.__setattr__(name, value)`: the unknown-field guard, the
immutability guard, then either single-field re-validation (context =
`self.dict(exclude={name})`, location = `name`) or a raw store.  The pair
returned is the outcome together with the instance's stored mapping after
the call (unchanged whenever an exception is raised).  `self.fields[name]`
is an unguarded dict lookup: its failure is `raisedKeyError`. -/
def setattr_ (m : Model) (vals : VMap) (name : String) (value : Value) :
    SetOutcome × VMap :=
  if m.config.extra ≠ Extra.allow ∧ name ∉ keysOf m.fields then
    (SetOutcome.raisedValueError, vals)
  else if m.config.allow_mutation = false then
    (SetOutcome.raisedTypeError, vals)
  else if m.config.validate_assignment then
    match getKey m.fields name with
    | none => (SetOutcome.raisedKeyError, vals)
    | some f =>
      match f.validate value (dict_ vals none [name]) name with
      | FieldResult.ok v_ => (SetOutcome.assigned, setKey vals name v_)
      | FieldResult.err e => (SetOutcome.raisedValidation e, vals)
  else (SetOutcome.assigned, setKey vals name value)

/-! ## Decoding entry points: `parse_obj`, `parse_raw`, `parse_file` -/

/-- The object produced by the decode collaborator: a keyed mapping or
anything else (`parse_obj` only inspects dict-ness). -/
inductive PyObj : Type
  | dict (m : VMap)
  | nondict

/-- How a decoding entry point terminates: a constructed instance (its
stored mapping), a raised `ValidationError`, a raised `ConfigError`, or a
raw exception propagated to the caller. -/
inductive ParseResult : Type
  | inst (values : VMap)
  | raisedValidation (errs : List ErrorWrapper)
  | raisedConfig (msg : String)
  | raisedRaw (e : Exc)

/-- `BaseModel.parse_obj(obj)`: non-dicts become a single wrapped
`TypeError` at `__obj__`; dicts are validated with `raise_exc` set. -/
def parse_obj (m : Model) (obj : PyObj) : ParseResult :=
  match obj with
  | PyObj.nondict =>
    ParseResult.raisedValidation [ErrorWrapper.mk (ErrCause.exc Exc.typeError) "__obj__"]
  | PyObj.dict d =>
    match validate_model m d true with
    | VMOut.configError msg => ParseResult.raisedConfig msg
    | VMOut.raised errs => ParseResult.raisedValidation errs
    | VMOut.okValues vals => ParseResult.inst vals
    | VMOut.okPair vals _ => ParseResult.inst vals

/-- The exception kinds `parse_raw` catches:
`(ValueError, TypeError, UnicodeDecodeError)`. -/
def caughtExc : Exc → Bool
  | Exc.valueError => true
  | Exc.typeError => true
  | Exc.unicodeDecodeError => true
  | Exc.otherError _ => false

/-- `BaseModel.parse_raw`: the `load_str_bytes` collaborator's outcome is
the argument; a caught decode failure is re-raised as a
`ValidationError` with one wrapper at `__obj__`, any other exception
propagates raw. -/
def parse_raw (m : Model) (decoded : Except Exc PyObj) : ParseResult :=
  match decoded with
  | Except.error e =>
    if caughtExc e then
      ParseResult.raisedValidation [ErrorWrapper.mk (ErrCause.exc e) "__obj__"]
    else ParseResult.raisedRaw e
  | Except.ok obj => parse_obj m obj

/-- `BaseModel.parse_file`: the `load_file` collaborator's outcome is the
argument; the source wraps it in no `try` block, so a decode failure
propagates raw. -/
def parse_file (m : Model) (loaded : Except Exc PyObj) : ParseResult :=
  match loaded with
  | Except.error e => ParseResult.raisedRaw e
  | Except.ok obj => parse_obj m obj

/-! ## Mapping identity: `construct` and `copy`

`BaseModel.copy()` with no arguments hands the instance's own
`__values__` dict to `construct(**v)`; the keyword-unpacking allocates a
fresh dict holding the same entries, which becomes the new instance's
`__values__`.  Distinctness of the two dict objects is what claim C7 is
about, so mapping objects are given explicit identities in a small heap:
an instance is its reference to a stored mapping. -/

/-- A heap of mapping objects: contents per reference, plus the next
fresh reference. -/
structure Heap : Type where
  store : Nat → VMap
  next : Nat

/-- Allocate a fresh mapping object. -/
def Heap.alloc (h : Heap) (m : VMap) : Nat × Heap :=
  (h.next, ⟨fun r => if r = h.next then m else h.store r, h.next + 1⟩)

/-- Overwrite the mapping object behind a reference. -/
def Heap.write (h : Heap) (r : Nat) (m : VMap) : Heap :=
  ⟨fun r0 => if r0 = r then m else h.store r0, h.next⟩

/-- `BaseModel.construct(**values)`: store the keyword mapping (already a
fresh dict, by Python's keyword-unpacking) as the new instance's
`__values__`, with no validation. -/
def construct (h : Heap) (values : VMap) : Nat × Heap :=
  h.alloc values

/-- `BaseModel.copy()` with no arguments and `deep=False`:
`v = self.__values__` (no filtering), then `construct(**v)`. -/
def copy_noargs (h : Heap) (self : Nat) : Nat × Heap :=
  construct h (h.store self)

/-- `self.__values__[name] = value`: the store every successful
`__setattr__` path ends in, as a heap operation on the instance's mapping
object. -/
def setattr_store (h : Heap) (r : Nat) (name : String) (v : Value) : Heap :=
  h.write r (setKey (h.store r) name v)

/-! ## Configuration finalization: `set_extra` -/

/-- The configuration attributes `set_extra` consults: the two legacy
flags (`none` embeds `hasattr(...) == False`) and the raw value of
`config.extra` (a str-enum member equals its string value, so the raw
attribute is embedded as a string). -/
structure RawConfig : Type where
  ignore_extra : Option Bool
  allow_extra : Option Bool
  extra : String
deriving DecidableEq

/-- The three distinct deprecation notices `set_extra` can emit. -/
inductive DepWarning : Type
  | bothFlags
  | ignoreFlag
  | allowFlag
deriving DecidableEq

/-- Outcome of `set_extra`: the finalized policy plus the deprecation
notices emitted, or the `ValueError` naming the invalid `extra` value. -/
inductive SetExtraResult : Type
  | ok (extra : Extra) (warnings : List DepWarning)
  | valueError (badValue : String)
deriving DecidableEq

/-- `Extra(value)` coercion on the str-enum: succeeds exactly on the
three member values. -/
def extraOfString (s : String) : Option Extra :=
  if s = "allow" then some Extra.allow
  else if s = "ignore" then some Extra.ignore
  else if s = "forbid" then some Extra.forbid
  else none

/-- `set_extra(config, cls_name)`: legacy flags, when present, derive the
policy (`allow` over `ignore`-defaulted over `forbid`) and emit one
deprecation notice naming the flag(s) used; otherwise `config.extra` is
coerced, a failure raising a `ValueError` naming the value. -/
def set_extra (c : RawConfig) : SetExtraResult :=
  let has_ignore_extra := c.ignore_extra.isSome
  let has_allow_extra := c.allow_extra.isSome
  if has_ignore_extra || has_allow_extra then
    let e :=
      if c.allow_extra.getD false then Extra.allow
      else if c.ignore_extra.getD true then Extra.ignore
      else Extra.forbid
    let w :=
      if has_ignore_extra && has_allow_extra then DepWarning.bothFlags
      else if has_ignore_extra then DepWarning.ignoreFlag
      else DepWarning.allowFlag
    SetExtraResult.ok e [w]
  else
    match extraOfString c.extra with
    | some e => SetExtraResult.ok e []
    | none => SetExtraResult.valueError c.extra

/-! ## Field-table assembly: `MetaModel.__new__` -/

/-- An annotation entry: a class-level constant marker or a plain type
(types themselves are opaque to the assembly, embedded as tags). -/
inductive AnnEntry : Type
  | classVar
  | ty (t : Nat)
deriving DecidableEq

/-- A namespace entry: a value in `TYPE_BLACKLIST`
(function/property/type/classmethod/staticmethod, including the `Config`
class itself) or a concrete default value. -/
inductive NsEntry : Type
  | blacklisted
  | value (v : Value)

/-- The declaration-time data `MetaModel.__new__` consumes for the field
table: the `__fields__` of the qualifying bases (proper `BaseModel`
subclasses) in base-declaration order, the resolved `__annotations__`,
and the class namespace, each in declaration order. -/
structure ClassDecl : Type where
  baseFields : List (List (String × Field))
  annotations : List (String × AnnEntry)
  ns : List (String × NsEntry)

/-- `fields.update(other)` on ordered dicts: existing keys keep their
position and take the new value; new keys append. -/
def dictUpdate (m other : List (String × Field)) : List (String × Field) :=
  other.foldl (fun acc kv => setKey acc kv.1 kv.2) m

/-- The names annotated as class-level constants. -/
def classVarsOf (anns : List (String × AnnEntry)) : List String :=
  anns.filterMap (fun na => match na.2 with
    | AnnEntry.classVar => some na.1
    | AnnEntry.ty _ => none)

/-- The field-table portion of `MetaModel.__new__`: inherited tables
merged in reverse base order, then annotation-only fields, then valued
namespace fields.  `inferA`/`inferV` stand for the external
`Field.infer` collaborator (annotation-only call with `value=...`, and
valued call with the namespace value and optional annotation); the
`validate_field_name` collision check is a build-failure mode outside
these claims and is assumed to pass. -/
def assembleFields (inferA : String → Nat → Field)
    (inferV : String → Value → Option Nat → Field) (d : ClassDecl) :
    List (String × Field) :=
  let inherited := d.baseFields.reverse.foldl dictUpdate []
  let class_vars := classVarsOf d.annotations
  let withAnn := d.annotations.foldl (fun fl na =>
    match na.2 with
    | AnnEntry.classVar => fl
    | AnnEntry.ty t =>
      if ¬ na.1.startsWith "_" ∧ na.1 ∉ keysOf d.ns then
        setKey fl na.1 (inferA na.1 t)
      else fl) inherited
  d.ns.foldl (fun fl ne =>
    match ne.2 with
    | NsEntry.blacklisted => fl
    | NsEntry.value v =>
      if ¬ ne.1.startsWith "_" ∧ ne.1 ∉ class_vars then
        setKey fl ne.1 (inferV ne.1 v (match getKey d.annotations ne.1 with
          | some (AnnEntry.ty t) => some t
          | _ => none))
      else fl) withAnn

/-- The input key a field's lookup matches: the alias when present, else
the name when population by name applies and the alias differs from the
name. -/
def matchedKey (cfg : Config) (input : VMap) (f : Field) : Option String :=
  match getKey input f.alias_ with
  | some _ => some f.alias_
  | none =>
    if cfg.allow_population_by_alias && f.alt_alias then
      match getKey input f.name with
      | some _ => some f.name
      | none => none
    else none

/-! ## Counting missing errors -/

/-- The engine's field lookup as a standalone function: the alias value
when present, else the name value when population by name applies. -/
def lookupValue (cfg : Config) (input : VMap) (f : Field) : Option Value :=
  match getKey input f.alias_ with
  | some v => some v
  | none =>
    if cfg.allow_population_by_alias && f.alt_alias then getKey input f.name
    else none

/-- Whether the absent-value branch records a missing error at location
`A` for this field. -/
def absentMissingB (cfg : Config) (A : String) (f : Field) : Bool :=
  !(cfg.validate_all || f.validate_always) && f.required && decide (f.alias_ = A)

/-- Whether the loop records a missing error at location `A` for this
field-table entry on this input. -/
def missingAtB (cfg : Config) (input : VMap) (A : String) (p : String × Field) : Bool :=
  (lookupValue cfg input p.2).isNone && absentMissingB cfg A p.2

/-- Number of `MissingError` wrappers located at `A`. -/
def countMissingAt (A : String) (errs : List ErrorWrapper) : Nat :=
  (errs.filter (fun e => decide (e.cause = ErrCause.missing ∧ e.loc = A))).length

/-- The coercion collaborator of `f` never reports a wrapper that poses
as a `MissingError` at location `A` (the engine's own error kind; per the
interface contract the collaborator's causes are coercion failures). -/
def collabNoMissingAt (A : String) (f : Field) : Prop :=
  ∀ (v : Value) (vs : VMap) (loc : String),
    match f.validate v vs loc with
    | FieldResult.ok _ => True
    | FieldResult.err (FieldError.single e) => ¬ (e.cause = ErrCause.missing ∧ e.loc = A)
    | FieldResult.err (FieldError.multi es) => ∀ e ∈ es, ¬ (e.cause = ErrCause.missing ∧ e.loc = A)

/-! ## The final loop state and the unconsumed-key lists -/

/-- The per-field loop's final state (`values`, `errors`, `names_used`
after the loop, before the extra-key pass). -/
def loopState (m : Model) (input : VMap) : VState :=
  runF m.config input m.fields initState

/-- `extra = input_data.keys() - names_used`, in input-key order. -/
def unconsumedKeys (m : Model) (input : VMap) : List String :=
  (keysOf input).filter (fun k => ¬ k ∈ (loopState m input).names_used)

/-- `sorted(extra)`. -/
def sortedUnconsumed (m : Model) (input : VMap) : List String :=
  List.insertionSort (· ≤ ·) (unconsumedKeys m input)

/-- The keys added by a sequence of dict assignments: existing keys stay
put, new keys append in first-occurrence order. -/
def addKeys (ks new : List String) : List String :=
  new.foldl (fun a k => if k ∈ a then a else a ++ [k]) ks

/-! ## The annotation-only and valued field groups -/

/-- The annotation lookup `annotations.get(var_name)` restricted to a
plain type. -/
def annTyOf (d : ClassDecl) (n : String) : Option Nat :=
  match getKey d.annotations n with
  | some (AnnEntry.ty t) => some t
  | _ => none

/-- The annotation-only `Field.infer` calls, in annotation order. -/
def annDefs (iA : String → Nat → Field) (d : ClassDecl) : List (String × Field) :=
  d.annotations.filterMap (fun na =>
    match na.2 with
    | AnnEntry.ty t =>
      if ¬ na.1.startsWith "_" ∧ na.1 ∉ keysOf d.ns then some (na.1, iA na.1 t) else none
    | AnnEntry.classVar => none)

/-- The valued-namespace `Field.infer` calls, in namespace order. -/
def valDefs (iV : String → Value → Option Nat → Field) (d : ClassDecl) :
    List (String × Field) :=
  d.ns.filterMap (fun ne =>
    match ne.2 with
    | NsEntry.value v =>
      if ¬ ne.1.startsWith "_" ∧ ne.1 ∉ classVarsOf d.annotations then
        some (ne.1, iV ne.1 v (annTyOf d ne.1))
      else none
    | NsEntry.blacklisted => none)

/-! ## Concrete fixtures for counterexamples and witnesses -/

/-- A coercion collaborator that accepts every value unchanged. -/
def acceptAll : Value → VMap → String → FieldResult := fun v _ _ => FieldResult.ok v

/-- A coercion collaborator that rejects every value with one wrapper at
the passed location. -/
def rejectAll : Value → VMap → String → FieldResult :=
  fun _ _ loc => FieldResult.err (FieldError.single (ErrorWrapper.mk (ErrCause.tagged 0) loc))

def fieldReqX : Field := { name := "x", alias_ := "x", required := true, validate := acceptAll }

def fieldFwdY : Field := { name := "y", alias_ := "y", isForwardRef := true, validate := acceptAll }

def fieldRejX : Field := { name := "x", alias_ := "x", validate := rejectAll }

def modelValidateAll : Model := ⟨[("x", fieldReqX)], { validate_all := true }⟩

def modelPlain : Model := ⟨[("x", fieldReqX)], {}⟩

def modelFwd : Model := ⟨[("y", fieldFwdY)], {}⟩

def modelEmpty : Model := ⟨[], {}⟩

def modelAssign : Model := ⟨[("x", fieldRejX)], { validate_assignment := true }⟩

def modelAllowVA : Model :=
  ⟨[("x", fieldReqX)], { extra := Extra.allow, validate_assignment := true }⟩

def heap0 : Heap := ⟨fun _ => [], 1⟩

def cfgBothFlags : RawConfig := ⟨some true, some true, "ignore"⟩

def modelForbidRej : Model := ⟨[("x", fieldRejX)], { extra := Extra.forbid }⟩

def fieldA : Field := { name := "a", alias_ := "a", validate := acceptAll }

def modelForbidA : Model := ⟨[("a", fieldA)], { extra := Extra.forbid }⟩

def inputZBA : VMap := [("z", Value.int 1), ("b", Value.int 2), ("a", Value.int 3)]

def inferA0 : String → Nat → Field :=
  fun n _ => { name := n, alias_ := n, required := true, validate := acceptAll }

def inferV0 : String → Value → Option Nat → Field :=
  fun n _ _ => { name := n, alias_ := n, validate := acceptAll }

def decl0 : ClassDecl :=
  { baseFields := [[("a", fieldA)]]
    annotations := [("b", AnnEntry.ty 0), ("c", AnnEntry.classVar)]
    ns := [("d0", NsEntry.value Value.none_), ("e", NsEntry.blacklisted)] }

/-! ## Association-list lemmas -/

@[simp] theorem keysOf_nil {α : Type} : keysOf ([] : List (String × α)) = [] := rfl

@[simp] theorem keysOf_cons {α : Type} (kv : String × α) (t : List (String × α)) :
    keysOf (kv :: t) = kv.1 :: keysOf t := rfl

@[simp] theorem getKey_nil {α : Type} (k : String) : getKey ([] : List (String × α)) k = none := rfl

theorem getKey_cons {α : Type} (k0 : String) (v0 : α) (t : List (String × α)) (k : String) :
    getKey ((k0, v0) :: t) k = if k0 = k then some v0 else getKey t k := rfl

theorem mem_keysOf_of_getKey {α : Type} :
    ∀ {l : List (String × α)} {k : String} {v : α}, getKey l k = some v → k ∈ keysOf l
  | [], _, _, h => by simp [getKey] at h
  | (k0, v0) :: t, k, v, h => by
    by_cases hk : k0 = k
    · subst hk; simp
    · rw [getKey_cons, if_neg hk] at h
      simp [mem_keysOf_of_getKey h]

theorem getKey_eq_none_iff {α : Type} :
    ∀ {l : List (String × α)} {k : String}, getKey l k = none ↔ k ∉ keysOf l
  | [], k => by simp
  | (k0, v0) :: t, k => by
    rw [getKey_cons]
    by_cases hk : k0 = k
    · subst hk; simp
    · rw [if_neg hk]
      simp [getKey_eq_none_iff, Ne.symm hk]

theorem exists_getKey_of_mem {α : Type} {l : List (String × α)} {k : String}
    (h : k ∈ keysOf l) : ∃ v, getKey l k = some v := by
  cases hv : getKey l k with
  | none => exact absurd h (getKey_eq_none_iff.mp hv)
  | some v => exact ⟨v, rfl⟩

@[simp] theorem getKey_setKey_self {α : Type} :
    ∀ (l : List (String × α)) (k : String) (v : α), getKey (setKey l k v) k = some v
  | [], k, v => by simp [setKey, getKey]
  | (k0, v0) :: t, k, v => by
    by_cases hk : k0 = k
    · simp [setKey, hk, getKey]
    · simp only [setKey, if_neg hk, getKey_cons]
      exact getKey_setKey_self t k v

theorem getKey_setKey_ne {α : Type} :
    ∀ (l : List (String × α)) (k k' : String) (v : α), k' ≠ k →
      getKey (setKey l k v) k' = getKey l k'
  | [], k, k', v, h => by simp [setKey, getKey_cons, Ne.symm h]
  | (k0, v0) :: t, k, k', v, h => by
    by_cases hk : k0 = k
    · subst hk
      simp [setKey, getKey_cons, Ne.symm h]
    · simp only [setKey, if_neg hk, getKey_cons]
      by_cases hk' : k0 = k'
      · simp [hk']
      · rw [if_neg hk', if_neg hk', getKey_setKey_ne t k k' v h]

theorem keysOf_setKey {α : Type} :
    ∀ (l : List (String × α)) (k : String) (v : α),
      keysOf (setKey l k v) = if k ∈ keysOf l then keysOf l else keysOf l ++ [k]
  | [], k, v => by simp [setKey]
  | (k0, v0) :: t, k, v => by
    by_cases hk : k0 = k
    · subst hk; simp [setKey]
    · simp only [setKey, if_neg hk, keysOf_cons]
      rw [keysOf_setKey t k v]
      by_cases hm : k ∈ keysOf t
      · simp [hm, Ne.symm hk]
      · simp [hm, Ne.symm hk]

theorem getKey_eraseKey_ne {α : Type} :
    ∀ (l : List (String × α)) (k k' : String), k' ≠ k →
      getKey (eraseKey l k) k' = getKey l k'
  | [], _, _, _ => rfl
  | (k0, v0) :: t, k, k', h => by
    by_cases hk : k0 = k
    · subst hk
      simp only [eraseKey, List.filter_cons]
      have : ¬ (k0 ≠ k0) := fun hc => hc rfl
      simp only [decide_eq_true_eq]
      rw [if_neg this, getKey_cons, if_neg (fun hc => h hc.symm)]
      exact getKey_eraseKey_ne t k0 k' (fun hc => h hc)
    · simp only [eraseKey, List.filter_cons, decide_eq_true_eq]
      rw [if_pos hk, getKey_cons, getKey_cons]
      by_cases hk' : k0 = k'
      · simp [hk']
      · rw [if_neg hk', if_neg hk']
        exact getKey_eraseKey_ne t k k' h

/-! ## Structural lemmas about the engine -/

@[simp] theorem runF_nil (cfg : Config) (input : VMap) (st : VState) :
    runF cfg input [] st = st := rfl

@[simp] theorem runF_cons (cfg : Config) (input : VMap) (nf : String × Field)
    (fs : List (String × Field)) (st : VState) :
    runF cfg input (nf :: fs) st = runF cfg input fs (fieldStep cfg input st nf) := rfl

/-- On a forward-reference-free field list the loop never raises the
`ConfigError`, and computes its pure form. -/
theorem runFields_eq_runF (cfg : Config) (input : VMap) :
    ∀ (fs : List (String × Field)) (st : VState),
      (∀ p ∈ fs, p.2.isForwardRef = false) →
      runFields cfg input fs st = Except.ok (runF cfg input fs st)
  | [], st, _ => rfl
  | nf :: fs, st, h => by
    have h0 : nf.2.isForwardRef = false := h nf (List.mem_cons_self _ _)
    simp only [runFields, h0, Bool.false_eq_true, if_false, runF_cons]
    exact runFields_eq_runF cfg input fs _ (fun p hp => h p (List.mem_cons_of_mem _ hp))

theorem applyExtraKeys_names (cfg : Config) (input : VMap) (st : VState) (extra : List String) :
    (applyExtraKeys cfg input st extra).names_used = st.names_used := by
  unfold applyExtraKeys
  by_cases he : extra.isEmpty
  · rw [if_pos he]
  · rw [if_neg he]
    by_cases ha : cfg.extra = Extra.allow
    · rw [if_pos ha]
    · rw [if_neg ha]

theorem applyExtraKeys_values_not_allow (cfg : Config) (input : VMap) (st : VState)
    (extra : List String) (h : cfg.extra ≠ Extra.allow) :
    (applyExtraKeys cfg input st extra).values = st.values := by
  unfold applyExtraKeys
  by_cases he : extra.isEmpty
  · rw [if_pos he]
  · rw [if_neg he, if_neg h]

theorem applyExtraKeys_errors_forbid (cfg : Config) (input : VMap) (st : VState)
    (extra : List String) (h : cfg.extra = Extra.forbid) :
    (applyExtraKeys cfg input st extra).errors
      = st.errors ++ (List.insertionSort (· ≤ ·) extra).map
          (fun k => ErrorWrapper.mk ErrCause.extra k) := by
  unfold applyExtraKeys
  by_cases he : extra.isEmpty
  · rw [if_pos he, List.isEmpty_iff.mp he]
    simp
  · rw [if_neg he, if_neg (by rw [h]; exact fun hc => Extra.noConfusion hc)]

theorem applyExtraKeys_errors_allow (cfg : Config) (input : VMap) (st : VState)
    (extra : List String) (h : cfg.extra = Extra.allow) :
    (applyExtraKeys cfg input st extra).errors = st.errors := by
  unfold applyExtraKeys
  by_cases he : extra.isEmpty
  · rw [if_pos he]
  · rw [if_neg he, if_pos h]

theorem applyExtra_errors (cfg : Config) (input : VMap) (st : VState) :
    (applyExtra cfg input st).errors = st.errors ++ extraErrorsOf cfg input st.names_used := by
  unfold applyExtra extraErrorsOf
  by_cases hig : cfg.extra = Extra.ignore
  · rw [if_neg (fun hc => hc hig), if_neg (by rw [hig]; exact fun hc => Extra.noConfusion hc)]
    simp
  · rw [if_pos hig]
    by_cases hfb : cfg.extra = Extra.forbid
    · rw [if_pos hfb, applyExtraKeys_errors_forbid cfg input st _ hfb]
    · have hal : cfg.extra = Extra.allow := by
        cases hce : cfg.extra with
        | allow => rfl
        | ignore => exact absurd hce hig
        | forbid => exact absurd hce hfb
      rw [if_neg hfb, applyExtraKeys_errors_allow cfg input st _ hal]
      simp

theorem applyExtra_values_not_allow (cfg : Config) (input : VMap) (st : VState)
    (h : cfg.extra ≠ Extra.allow) : (applyExtra cfg input st).values = st.values := by
  unfold applyExtra
  by_cases hig : cfg.extra = Extra.ignore
  · rw [if_neg (fun hc => hc hig)]
  · rw [if_pos hig, applyExtraKeys_values_not_allow cfg input st _ h]

theorem applyExtra_names (cfg : Config) (input : VMap) (st : VState) :
    (applyExtra cfg input st).names_used = st.names_used := by
  unfold applyExtra
  by_cases hig : cfg.extra = Extra.ignore
  · rw [if_neg (fun hc => hc hig)]
  · rw [if_pos hig, applyExtraKeys_names cfg input st _]

/-- `validate_model` with `raise_exc=False` on a forward-reference-free
model: the returned pair, in terms of the final loop state. -/
theorem validate_model_false_eq (m : Model) (input : VMap)
    (hfw : ∀ p ∈ m.fields, p.2.isForwardRef = false) :
    validate_model m input false = VMOut.okPair (finalState m input).values
      (if (finalState m input).errors = [] then none
       else some (finalState m input).errors) := by
  unfold validate_model finalState
  rw [runFields_eq_runF m.config input m.fields initState hfw]
  rfl

/-! ## Consumption of matched input keys -/

theorem mem_addName (l : List String) (k k' : String) (h : k ∈ l) : k ∈ addName l k' := by
  unfold addName
  split
  · exact h
  · exact List.mem_append_left _ h

theorem mem_addName_self (l : List String) (k : String) : k ∈ addName l k := by
  unfold addName
  split
  · assumption
  · exact List.mem_append_right _ (List.mem_singleton.mpr rfl)

theorem coerceStep_names (st : VState) (name : String) (f : Field) (v : Value) :
    (coerceStep st name f v).names_used = st.names_used := by
  unfold coerceStep
  cases f.validate v st.values f.alias_ with
  | ok v_ => rfl
  | err e => cases e <;> rfl

theorem coerceStep_errors (st : VState) (name : String) (f : Field) (v : Value) :
    ∃ tail, (coerceStep st name f v).errors = st.errors ++ tail := by
  unfold coerceStep
  cases f.validate v st.values f.alias_ with
  | ok v_ => exact ⟨[], by simp⟩
  | err e =>
    cases e with
    | single e0 => exact ⟨[e0], rfl⟩
    | multi es => exact ⟨es, rfl⟩

theorem handleFound_names (cfg : Config) (st : VState) (name : String) (f : Field)
    (un : Bool) (v : Value) :
    (handleFound cfg st name f un v).names_used
      = if cfg.extra ≠ Extra.ignore then
          addName st.names_used (if un then f.name else f.alias_)
        else st.names_used := by
  simp only [handleFound]
  rw [coerceStep_names]
  split <;> rfl

theorem handleAbsent_names (cfg : Config) (st : VState) (name : String) (f : Field) :
    (handleAbsent cfg st name f).names_used = st.names_used := by
  unfold handleAbsent
  split
  · rw [coerceStep_names]
  · split <;> rfl

theorem fieldStep_names_mono (cfg : Config) (input : VMap) (st : VState)
    (nf : String × Field) (k : String) (h : k ∈ st.names_used) :
    k ∈ (fieldStep cfg input st nf).names_used := by
  unfold fieldStep
  split
  · rw [handleFound_names]
    split
    · exact mem_addName _ _ _ h
    · exact h
  · split
    · split
      · rw [handleFound_names]
        split
        · exact mem_addName _ _ _ h
        · exact h
      · rw [handleAbsent_names]; exact h
    · rw [handleAbsent_names]; exact h

theorem runF_names_mono (cfg : Config) (input : VMap) :
    ∀ (fs : List (String × Field)) (st : VState) (k : String),
      k ∈ st.names_used → k ∈ (runF cfg input fs st).names_used
  | [], _, _, h => h
  | nf :: fs, st, k, h =>
    runF_names_mono cfg input fs _ k (fieldStep_names_mono cfg input st nf k h)

theorem fieldStep_marks_matched (cfg : Config) (input : VMap) (st : VState)
    (nf : String × Field) (k : String)
    (hch : cfg.extra ≠ Extra.ignore)
    (hmk : matchedKey cfg input nf.2 = some k) :
    k ∈ (fieldStep cfg input st nf).names_used := by
  unfold matchedKey at hmk
  unfold fieldStep
  split
  · rename_i v hv
    rw [hv] at hmk
    have hk : nf.2.alias_ = k := Option.some.inj hmk
    rw [handleFound_names, if_pos hch]
    exact hk ▸ mem_addName_self st.names_used nf.2.alias_
  · rename_i hv
    rw [hv] at hmk
    split
    · rename_i hp
      rw [if_pos hp] at hmk
      split
      · rename_i v hn
        rw [hn] at hmk
        have hk : nf.2.name = k := Option.some.inj hmk
        rw [handleFound_names, if_pos hch]
        exact hk ▸ mem_addName_self st.names_used nf.2.name
      · rename_i hn
        rw [hn] at hmk
        exact absurd hmk (by simp)
    · rename_i hp
      rw [if_neg hp] at hmk
      exact absurd hmk (by simp)

theorem runF_marks_matched (cfg : Config) (input : VMap)
    (hch : cfg.extra ≠ Extra.ignore) :
    ∀ (fs : List (String × Field)) (st : VState) (n : String) (f : Field) (k : String),
      (n, f) ∈ fs → matchedKey cfg input f = some k →
      k ∈ (runF cfg input fs st).names_used
  | [], _, _, _, _, h, _ => absurd h (List.not_mem_nil _)
  | nf :: fs, st, n, f, k, h, hmk => by
    rcases List.mem_cons.mp h with heq | h'
    · rw [runF_cons]
      refine runF_names_mono cfg input fs _ k ?_
      have : nf.2 = f := by rw [← heq]
      exact fieldStep_marks_matched cfg input st nf k hch (by rw [this]; exact hmk)
    · exact runF_marks_matched cfg input hch fs _ n f k h' hmk

theorem extraErrorsOf_loc_not_used (cfg : Config) (input : VMap) (used : List String) :
    ∀ e ∈ extraErrorsOf cfg input used, e.loc ∉ used := by
  unfold extraErrorsOf
  split
  · intro e he
    rcases List.mem_map.mp he with ⟨k0, hk0, rfl⟩
    have hk0' : k0 ∈ (keysOf input).filter (fun k => ¬ k ∈ used) :=
      (List.perm_insertionSort _ _).mem_iff.mp hk0
    have := (List.mem_filter.mp hk0').2
    simpa using this
  · intro e he
    exact absurd he (List.not_mem_nil _)

/-! ## Independence from unconsumed keys -/

theorem fieldStep_eraseKey (cfg : Config) (input : VMap) (st : VState)
    (nf : String × Field) (k : String)
    (halias : nf.2.alias_ ≠ k)
    (hname : getKey input nf.2.alias_ = none →
      (cfg.allow_population_by_alias && nf.2.alt_alias) = true → nf.2.name ≠ k) :
    fieldStep cfg (eraseKey input k) st nf = fieldStep cfg input st nf := by
  unfold fieldStep
  rw [getKey_eraseKey_ne input k nf.2.alias_ halias]
  cases hv : getKey input nf.2.alias_ with
  | some v => rfl
  | none =>
    cases hp : (cfg.allow_population_by_alias && nf.2.alt_alias) with
    | false => rfl
    | true =>
      rw [getKey_eraseKey_ne input k nf.2.name (hname hv hp)]

theorem matchedKey_of_alias (cfg : Config) (input : VMap) (f : Field) (v : Value)
    (hv : getKey input f.alias_ = some v) :
    matchedKey cfg input f = some f.alias_ := by
  unfold matchedKey
  rw [hv]

theorem matchedKey_of_name (cfg : Config) (input : VMap) (f : Field) (v : Value)
    (hv0 : getKey input f.alias_ = none)
    (hp : (cfg.allow_population_by_alias && f.alt_alias) = true)
    (hv : getKey input f.name = some v) :
    matchedKey cfg input f = some f.name := by
  unfold matchedKey
  rw [hv0]
  show (if (cfg.allow_population_by_alias && f.alt_alias) = true then
      match getKey input f.name with
      | some _ => some f.name
      | none => none
    else none) = some f.name
  rw [if_pos hp, hv]

theorem runF_eraseKey (cfg : Config) (input : VMap) (k : String)
    (hch : cfg.extra ≠ Extra.ignore) (hk : k ∈ keysOf input) :
    ∀ (fs : List (String × Field)) (st : VState),
      k ∉ (runF cfg input fs st).names_used →
      runF cfg (eraseKey input k) fs st = runF cfg input fs st
  | [], _, _ => rfl
  | nf :: fs, st, hfin => by
    rw [runF_cons] at hfin
    have halias : nf.2.alias_ ≠ k := by
      intro he
      obtain ⟨v, hv⟩ := exists_getKey_of_mem (he ▸ hk)
      have hm : matchedKey cfg input nf.2 = some k :=
        (matchedKey_of_alias cfg input nf.2 v hv).trans (by rw [he])
      exact hfin (runF_names_mono cfg input fs _ k
        (fieldStep_marks_matched cfg input st nf k hch hm))
    have hname : getKey input nf.2.alias_ = none →
        (cfg.allow_population_by_alias && nf.2.alt_alias) = true → nf.2.name ≠ k := by
      intro hv0 hp he
      obtain ⟨v, hv⟩ := exists_getKey_of_mem (he ▸ hk)
      have hm : matchedKey cfg input nf.2 = some k :=
        (matchedKey_of_name cfg input nf.2 v hv0 hp hv).trans (by rw [he])
      exact hfin (runF_names_mono cfg input fs _ k
        (fieldStep_marks_matched cfg input st nf k hch hm))
    rw [runF_cons, runF_cons, fieldStep_eraseKey cfg input st nf k halias hname]
    exact runF_eraseKey cfg input k hch hk fs (fieldStep cfg input st nf) hfin

theorem lookupValue_alias (cfg : Config) (input : VMap) (f : Field) (v : Value)
    (hv : getKey input f.alias_ = some v) : lookupValue cfg input f = some v := by
  unfold lookupValue
  rw [hv]

theorem lookupValue_name (cfg : Config) (input : VMap) (f : Field) (v : Value)
    (hv0 : getKey input f.alias_ = none)
    (hp : (cfg.allow_population_by_alias && f.alt_alias) = true)
    (hv : getKey input f.name = some v) : lookupValue cfg input f = some v := by
  unfold lookupValue
  rw [hv0]
  show (if (cfg.allow_population_by_alias && f.alt_alias) = true then getKey input f.name
    else none) = some v
  rw [if_pos hp, hv]

theorem countMissingAt_append (A : String) (l1 l2 : List ErrorWrapper) :
    countMissingAt A (l1 ++ l2) = countMissingAt A l1 + countMissingAt A l2 := by
  unfold countMissingAt
  rw [List.filter_append, List.length_append]

theorem coerceStep_countMissing (st : VState) (name : String) (f : Field) (v : Value)
    (A : String) (hcol : collabNoMissingAt A f) :
    countMissingAt A (coerceStep st name f v).errors = countMissingAt A st.errors := by
  have h := hcol v st.values f.alias_
  unfold coerceStep
  split
  · rfl
  · rename_i e hr
    rw [hr] at h
    have h' : ¬ (e.cause = ErrCause.missing ∧ e.loc = A) := h
    show countMissingAt A (st.errors ++ [e]) = countMissingAt A st.errors
    rw [countMissingAt_append]
    have : countMissingAt A [e] = 0 := by simp [countMissingAt, h']
    rw [this]
    rfl
  · rename_i es hr
    rw [hr] at h
    have h' : ∀ e ∈ es, ¬ (e.cause = ErrCause.missing ∧ e.loc = A) := h
    show countMissingAt A (st.errors ++ es) = countMissingAt A st.errors
    rw [countMissingAt_append]
    have : countMissingAt A es = 0 := by
      unfold countMissingAt
      rw [List.filter_eq_nil_iff.mpr (fun e he => by simpa using h' e he)]
      rfl
    rw [this]
    rfl

theorem handleFound_countMissing (cfg : Config) (st : VState) (name : String) (f : Field)
    (un : Bool) (v : Value) (A : String) (hcol : collabNoMissingAt A f) :
    countMissingAt A (handleFound cfg st name f un v).errors
      = countMissingAt A st.errors := by
  simp only [handleFound]
  rw [coerceStep_countMissing _ name f v A hcol]
  split <;> rfl

theorem handleAbsent_countMissing (cfg : Config) (st : VState) (name : String) (f : Field)
    (A : String) (hcol : collabNoMissingAt A f) :
    countMissingAt A (handleAbsent cfg st name f).errors
      = countMissingAt A st.errors + (if absentMissingB cfg A f then 1 else 0) := by
  unfold handleAbsent absentMissingB
  split
  · rename_i hva
    rw [coerceStep_countMissing st name f (deepcopy f.default) A hcol]
    simp [hva]
  · rename_i hva
    have hva' : (cfg.validate_all || f.validate_always) = false := by
      cases hvv : (cfg.validate_all || f.validate_always)
      · rfl
      · exact absurd hvv hva
    split
    · rename_i hreq
      show countMissingAt A (st.errors ++ [ErrorWrapper.mk ErrCause.missing f.alias_]) = _
      rw [countMissingAt_append]
      have hone : countMissingAt A [ErrorWrapper.mk ErrCause.missing f.alias_]
          = if decide (f.alias_ = A) then 1 else 0 := by
        by_cases hA : f.alias_ = A <;> simp [countMissingAt, hA]
      rw [hone]
      simp [hva', hreq]
    · rename_i hreq
      have hreq' : f.required = false := by
        cases hr : f.required
        · rfl
        · exact absurd hr hreq
      show countMissingAt A st.errors = _
      simp [hva', hreq']

theorem fieldStep_countMissing (cfg : Config) (input : VMap) (A : String) (st : VState)
    (nf : String × Field) (hcol : collabNoMissingAt A nf.2) :
    countMissingAt A (fieldStep cfg input st nf).errors
      = countMissingAt A st.errors + (if missingAtB cfg input A nf then 1 else 0) := by
  unfold fieldStep
  split
  · rename_i v hv
    rw [handleFound_countMissing cfg st nf.1 nf.2 false v A hcol]
    have hB : missingAtB cfg input A nf = false := by
      simp [missingAtB, lookupValue_alias cfg input nf.2 v hv]
    rw [hB]
    simp
  · rename_i hv
    split
    · rename_i hp
      split
      · rename_i v hn
        rw [handleFound_countMissing cfg st nf.1 nf.2 true v A hcol]
        have hB : missingAtB cfg input A nf = false := by
          simp [missingAtB, lookupValue_name cfg input nf.2 v hv hp hn]
        rw [hB]
        simp
      · rename_i hn
        rw [handleAbsent_countMissing cfg st nf.1 nf.2 A hcol]
        have hL : lookupValue cfg input nf.2 = none := by
          unfold lookupValue
          rw [hv]
          show (if (cfg.allow_population_by_alias && nf.2.alt_alias) = true then
            getKey input nf.2.name else none) = none
          rw [if_pos hp, hn]
        have hB : missingAtB cfg input A nf = absentMissingB cfg A nf.2 := by
          simp [missingAtB, hL]
        rw [hB]
    · rename_i hp
      rw [handleAbsent_countMissing cfg st nf.1 nf.2 A hcol]
      have hL : lookupValue cfg input nf.2 = none := by
        unfold lookupValue
        rw [hv]
        show (if (cfg.allow_population_by_alias && nf.2.alt_alias) = true then
          getKey input nf.2.name else none) = none
        rw [if_neg hp]
      have hB : missingAtB cfg input A nf = absentMissingB cfg A nf.2 := by
        simp [missingAtB, hL]
      rw [hB]

theorem runF_countMissing (cfg : Config) (input : VMap) (A : String) :
    ∀ (fs : List (String × Field)) (st : VState),
      (∀ p ∈ fs, collabNoMissingAt A p.2) →
      countMissingAt A (runF cfg input fs st).errors
        = countMissingAt A st.errors + (fs.filter (missingAtB cfg input A)).length
  | [], st, _ => by simp
  | nf :: fs, st, hcol => by
    rw [runF_cons,
      runF_countMissing cfg input A fs _ (fun p hp => hcol p (List.mem_cons_of_mem _ hp)),
      fieldStep_countMissing cfg input A st nf (hcol nf (List.mem_cons_self _ _)),
      List.filter_cons]
    by_cases hB : missingAtB cfg input A nf = true
    · simp [hB]
      omega
    · simp [hB]

theorem countMissingAt_extraErrorsOf (cfg : Config) (input : VMap) (used : List String)
    (A : String) : countMissingAt A (extraErrorsOf cfg input used) = 0 := by
  unfold extraErrorsOf
  split
  · unfold countMissingAt
    rw [List.filter_eq_nil_iff.mpr (fun e he => by
      rcases List.mem_map.mp he with ⟨k0, _, rfl⟩
      simp)]
    rfl
  · rfl

theorem filter_fields_eq_singleton (pred : String × Field → Bool) :
    ∀ (l : List (String × Field)) (n : String) (f : Field),
      (n, f) ∈ l → (keysOf l).Nodup → pred (n, f) = true →
      (∀ p ∈ l, pred p = true → p = (n, f)) →
      l.filter pred = [(n, f)]
  | [], n, f, hm, _, _, _ => absurd hm (List.not_mem_nil _)
  | q :: t, n, f, hm, hnd, hpred, huniq => by
    obtain ⟨hq1, hndt⟩ := List.nodup_cons.mp (by simpa using hnd)
    rcases List.mem_cons.mp hm with heq | hmt
    · rw [List.filter_cons, if_pos (by rw [← heq]; exact hpred), ← heq]
      have hnil : t.filter pred = [] := by
        rw [List.filter_eq_nil_iff]
        intro p hp hpp
        have hpn : p = (n, f) := huniq p (List.mem_cons_of_mem _ hp) (by
          cases hq : pred p
          · exact absurd hq (by simpa using hpp)
          · rfl)
        apply hq1
        rw [← heq]
        exact hpn ▸ List.mem_map_of_mem Prod.fst hp
      rw [hnil]
    · have hqpred : pred q = false := by
        cases hqp : pred q
        · rfl
        · exfalso
          have hq : q = (n, f) := huniq q (List.mem_cons_self _ _) hqp
          apply hq1
          rw [hq]
          exact List.mem_map_of_mem Prod.fst hmt
      rw [List.filter_cons, if_neg (by rw [hqpred]; simp)]
      exact filter_fields_eq_singleton pred t n f hmt hndt hpred
        (fun p hp hpp => huniq p (List.mem_cons_of_mem _ hp) hpp)

/-! ## Claim C1 (amended theorem) -/

/-- C1 (amended): for every schema and input in which a required field's
value is absent under its alias (and under its name, when population by
name applies), provided neither `validate_all` nor that field's
`validate_always` flag is set, validation fails and the aggregated error
contains exactly one `MissingError` located at that field's alias —
under the side conditions that make "exactly one" well defined: field
keys are distinct (a dict invariant), no other field shares that alias,
and coercion collaborators do not themselves emit missing-kind wrappers
at that alias. -/
theorem missing_required_exactly_one_error (m : Model) (input : VMap)
    (n : String) (f : Field)
    (hmem : (n, f) ∈ m.fields)
    (hnd : (keysOf m.fields).Nodup)
    (hfw : ∀ p ∈ m.fields, p.2.isForwardRef = false)
    (hreq : f.required = true)
    (hva : m.config.validate_all = false)
    (hfa : f.validate_always = false)
    (habs : lookupValue m.config input f = none)
    (huniq : ∀ p ∈ m.fields, p.2.alias_ = f.alias_ → p = (n, f))
    (hcol : ∀ p ∈ m.fields, collabNoMissingAt f.alias_ p.2) :
    ∃ vals errs, validate_model m input false = VMOut.okPair vals (some errs)
      ∧ countMissingAt f.alias_ errs = 1 := by
  have hpred : missingAtB m.config input f.alias_ (n, f) = true := by
    simp [missingAtB, absentMissingB, habs, hva, hfa, hreq]
  have halias_of_pred : ∀ p ∈ m.fields,
      missingAtB m.config input f.alias_ p = true → p = (n, f) := by
    intro p hp hpp
    refine huniq p hp ?_
    have := hpp
    simp [missingAtB, absentMissingB] at this
    exact this.2.2
  have hfilter : m.fields.filter (missingAtB m.config input f.alias_) = [(n, f)] :=
    filter_fields_eq_singleton _ m.fields n f hmem hnd hpred halias_of_pred
  have hcount : countMissingAt f.alias_ (loopState m input).errors = 1 := by
    have h0 := runF_countMissing m.config input f.alias_ m.fields initState hcol
    rw [hfilter] at h0
    simpa [countMissingAt, initState] using h0
  have hfinal : countMissingAt f.alias_ (finalState m input).errors = 1 := by
    have hdec : (finalState m input).errors
        = (loopState m input).errors
          ++ extraErrorsOf m.config input (loopState m input).names_used :=
      applyExtra_errors m.config input _
    rw [hdec, countMissingAt_append, countMissingAt_extraErrorsOf, hcount]
  have hnonempty : (finalState m input).errors ≠ [] := by
    intro hnil
    rw [hnil] at hfinal
    simp [countMissingAt] at hfinal
  refine ⟨(finalState m input).values, (finalState m input).errors, ?_, hfinal⟩
  rw [validate_model_false_eq m input hfw, if_neg hnonempty]

/-! ## Claim C2 -/

/-- C2: under extra policy `forbid` (with no unresolved forward
references and distinct input keys, as for a Python dict), validation
returns per-field results plus errors laid out as: the per-field errors
in field-evaluation order, followed by exactly one `ExtraError` per
unconsumed input key, sorted by key; and removing any such extra key from
the input changes no declared field's validation result (the whole loop
state — values, errors and consumed keys — is unchanged). -/
theorem extra_forbid_sorted_errors (m : Model) (input : VMap)
    (hfb : m.config.extra = Extra.forbid)
    (hfw : ∀ p ∈ m.fields, p.2.isForwardRef = false)
    (hnd : (keysOf input).Nodup) :
    validate_model m input false
      = VMOut.okPair (loopState m input).values
          (if (finalState m input).errors = [] then none
           else some (finalState m input).errors)
    ∧ (finalState m input).errors
        = (loopState m input).errors
          ++ (sortedUnconsumed m input).map (fun k => ErrorWrapper.mk ErrCause.extra k)
    ∧ List.Sorted (· ≤ ·) (sortedUnconsumed m input)
    ∧ (sortedUnconsumed m input).Nodup
    ∧ (∀ k, k ∈ sortedUnconsumed m input
        ↔ k ∈ keysOf input ∧ k ∉ (loopState m input).names_used)
    ∧ (∀ k ∈ sortedUnconsumed m input,
        runF m.config (eraseKey input k) m.fields initState = loopState m input) := by
  have hnal : m.config.extra ≠ Extra.allow := by
    rw [hfb]; exact fun hc => Extra.noConfusion hc
  have hnig : m.config.extra ≠ Extra.ignore := by
    rw [hfb]; exact fun hc => Extra.noConfusion hc
  have hmem : ∀ k, k ∈ sortedUnconsumed m input
      ↔ k ∈ keysOf input ∧ k ∉ (loopState m input).names_used := by
    intro k
    unfold sortedUnconsumed unconsumedKeys
    rw [(List.perm_insertionSort _ _).mem_iff, List.mem_filter]
    simp
  refine ⟨?_, ?_, ?_, ?_, hmem, ?_⟩
  · rw [validate_model_false_eq m input hfw]
    have : (finalState m input).values = (loopState m input).values :=
      applyExtra_values_not_allow m.config input _ hnal
    rw [this]
  · have h1 : (finalState m input).errors
        = (loopState m input).errors
          ++ extraErrorsOf m.config input (loopState m input).names_used :=
      applyExtra_errors m.config input _
    rw [h1]
    unfold extraErrorsOf
    rw [if_pos hfb]
    rfl
  · exact List.sorted_insertionSort _ _
  · exact ((List.perm_insertionSort _ _).nodup_iff).mpr (hnd.filter _)
  · intro k hk
    have hk' := (hmem k).mp hk
    exact runF_eraseKey m.config input k hnig hk'.1 m.fields initState hk'.2

/-! ## Claim C9 -/

/-- C9: with extra policy not `ignore`, an input key matched by some
field (by alias, or by name under population-by-name) is marked consumed
— regardless of what that field's coercion collaborator returns, since
the marking precedes coercion — so the extra-key pass, whose appended
errors sit after the per-field errors, never also emits an `ExtraError`
at that key. -/
theorem matched_key_consumed_no_extra_error (m : Model) (input : VMap)
    (n : String) (f : Field) (k : String)
    (hch : m.config.extra ≠ Extra.ignore)
    (hmem : (n, f) ∈ m.fields)
    (hmk : matchedKey m.config input f = some k) :
    k ∈ (runF m.config input m.fields initState).names_used
    ∧ (finalState m input).errors
        = (runF m.config input m.fields initState).errors
          ++ extraErrorsOf m.config input (runF m.config input m.fields initState).names_used
    ∧ ∀ e ∈ extraErrorsOf m.config input (runF m.config input m.fields initState).names_used,
        e.loc ≠ k := by
  have hused : k ∈ (runF m.config input m.fields initState).names_used :=
    runF_marks_matched m.config input hch m.fields initState n f k hmem hmk
  refine ⟨hused, applyExtra_errors m.config input _, ?_⟩
  intro e he hloc
  exact extraErrorsOf_loc_not_used m.config input _ e he (hloc ▸ hused)

/-! ## Key ordering of dict updates (for the field-table assembly) -/

theorem addKeys_append (ks l1 l2 : List String) :
    addKeys ks (l1 ++ l2) = addKeys (addKeys ks l1) l2 :=
  List.foldl_append _ _ _ _

theorem keysOf_dictUpdate (m b : List (String × Field)) :
    keysOf (dictUpdate m b) = addKeys (keysOf m) (keysOf b) := by
  induction b generalizing m with
  | nil => rfl
  | cons kv t ih =>
    show keysOf (dictUpdate (setKey m kv.1 kv.2) t) = _
    rw [ih]
    show addKeys (keysOf (setKey m kv.1 kv.2)) (keysOf t)
      = addKeys (if kv.1 ∈ keysOf m then keysOf m else keysOf m ++ [kv.1]) (keysOf t)
    rw [keysOf_setKey]

theorem mem_addKeys (ks l : List String) (k : String) :
    k ∈ addKeys ks l ↔ k ∈ ks ∨ k ∈ l := by
  induction l generalizing ks with
  | nil => simp [addKeys]
  | cons a t ih =>
    show k ∈ addKeys (if a ∈ ks then ks else ks ++ [a]) t ↔ _
    rw [ih]
    by_cases ha : a ∈ ks
    · rw [if_pos ha]
      constructor
      · rintro (h | h)
        · exact Or.inl h
        · exact Or.inr (List.mem_cons_of_mem _ h)
      · rintro (h | h)
        · exact Or.inl h
        · rcases List.mem_cons.mp h with rfl | h
          · exact Or.inl ha
          · exact Or.inr h
    · rw [if_neg ha]
      constructor
      · rintro (h | h)
        · rcases List.mem_append.mp h with h | h
          · exact Or.inl h
          · exact Or.inr (List.mem_cons.mpr (Or.inl (List.mem_singleton.mp h)))
        · exact Or.inr (List.mem_cons_of_mem _ h)
      · rintro (h | h)
        · exact Or.inl (List.mem_append_left _ h)
        · rcases List.mem_cons.mp h with rfl | h
          · exact Or.inl (List.mem_append_right _ (List.mem_singleton.mpr rfl))
          · exact Or.inr h

theorem addKeys_nodup_eq (ks : List String) :
    ∀ (l : List String), l.Nodup →
      addKeys ks l = ks ++ l.filter (fun k => ¬ k ∈ ks) := by
  intro l
  induction l generalizing ks with
  | nil => intro _; simp [addKeys]
  | cons a t ih =>
    intro hnd
    obtain ⟨hat, hndt⟩ := List.nodup_cons.mp hnd
    show addKeys (if a ∈ ks then ks else ks ++ [a]) t = _
    by_cases ha : a ∈ ks
    · rw [if_pos ha, ih _ hndt, List.filter_cons, if_neg (by simp [ha])]
    · rw [if_neg ha, ih _ hndt, List.filter_cons, if_pos (by simp [ha]),
        List.append_assoc]
      congr 1
      show a :: t.filter (fun k => decide (¬ k ∈ ks ++ [a]))
        = a :: t.filter (fun k => decide (¬ k ∈ ks))
      congr 1
      apply List.filter_congr
      intro x hx
      have hxa : x ≠ a := fun hc => hat (hc ▸ hx)
      simp [List.mem_append, hxa]

theorem getKey_dictUpdate_not_mem :
    ∀ (ds m : List (String × Field)) (k : String), k ∉ keysOf ds →
      getKey (dictUpdate m ds) k = getKey m k
  | [], _, _, _ => rfl
  | kv :: t, m, k, h => by
    have h1 : k ∉ keysOf t := fun hc => h (List.mem_cons_of_mem _ hc)
    have h2 : kv.1 ≠ k := fun hc => h (List.mem_cons.mpr (Or.inl hc.symm))
    show getKey (dictUpdate (setKey m kv.1 kv.2) t) k = _
    rw [getKey_dictUpdate_not_mem t _ k h1,
      getKey_setKey_ne m kv.1 k kv.2 (Ne.symm h2)]

theorem getKey_dictUpdate_mem :
    ∀ (ds m : List (String × Field)) (n : String) (f : Field),
      (keysOf ds).Nodup → (n, f) ∈ ds → getKey (dictUpdate m ds) n = some f
  | [], _, _, _, _, h => absurd h (List.not_mem_nil _)
  | kv :: t, m, n, f, hnd, h => by
    obtain ⟨hk1, hndt⟩ := List.nodup_cons.mp (by simpa using hnd)
    rcases List.mem_cons.mp h with heq | hmt
    · show getKey (dictUpdate (setKey m kv.1 kv.2) t) n = some f
      have hnin : n ∉ keysOf t := by
        rw [← heq] at hk1
        exact hk1
      rw [getKey_dictUpdate_not_mem t _ n hnin, ← heq]
      exact getKey_setKey_self m n f
    · show getKey (dictUpdate (setKey m kv.1 kv.2) t) n = some f
      exact getKey_dictUpdate_mem t _ n f hndt hmt

theorem keysOf_foldl_dictUpdate :
    ∀ (bs : List (List (String × Field))) (m : List (String × Field)),
      keysOf (bs.foldl dictUpdate m) = addKeys (keysOf m) ((bs.map keysOf).flatten)
  | [], m => rfl
  | b :: bs, m => by
    show keysOf (bs.foldl dictUpdate (dictUpdate m b)) = _
    rw [keysOf_foldl_dictUpdate bs _, keysOf_dictUpdate]
    show _ = addKeys (keysOf m) (keysOf b ++ (bs.map keysOf).flatten)
    rw [addKeys_append]

theorem foldl_optStep_eq_dictUpdate {β : Type} (g : β → Option (String × Field))
    (step : List (String × Field) → β → List (String × Field))
    (hstep : ∀ a x, step a x = match g x with
      | some kv => setKey a kv.1 kv.2
      | none => a) :
    ∀ (xs : List β) (fl : List (String × Field)),
      xs.foldl step fl = dictUpdate fl (xs.filterMap g)
  | [], fl => rfl
  | x :: xs, fl => by
    rw [List.foldl_cons, hstep]
    cases hg : g x with
    | none =>
      rw [List.filterMap_cons_none hg]
      exact foldl_optStep_eq_dictUpdate g step hstep xs fl
    | some kv =>
      rw [List.filterMap_cons_some hg]
      show xs.foldl step (setKey fl kv.1 kv.2)
        = dictUpdate (setKey fl kv.1 kv.2) (xs.filterMap g)
      exact foldl_optStep_eq_dictUpdate g step hstep xs (setKey fl kv.1 kv.2)

/-- The field-table assembly decomposes into: inherited tables merged in
reverse base order, then the annotation-only group, then the valued
group, each applied by dict assignment. -/
theorem assembleFields_eq (iA : String → Nat → Field)
    (iV : String → Value → Option Nat → Field) (d : ClassDecl) :
    assembleFields iA iV d
      = dictUpdate
          (dictUpdate (d.baseFields.reverse.foldl dictUpdate []) (annDefs iA d))
          (valDefs iV d) := by
  have hstepA : ∀ (a : List (String × Field)) (na : String × AnnEntry),
      (match na.2 with
        | AnnEntry.classVar => a
        | AnnEntry.ty t =>
          if ¬ na.1.startsWith "_" ∧ na.1 ∉ keysOf d.ns then
            setKey a na.1 (iA na.1 t)
          else a)
      = match (match na.2 with
          | AnnEntry.ty t =>
            if ¬ na.1.startsWith "_" ∧ na.1 ∉ keysOf d.ns then
              some (na.1, iA na.1 t)
            else none
          | AnnEntry.classVar => none) with
        | some kv => setKey a kv.1 kv.2
        | none => a := by
    intro a na
    cases na.2 with
    | classVar => rfl
    | ty t =>
      show (if ¬ na.1.startsWith "_" ∧ na.1 ∉ keysOf d.ns then
          setKey a na.1 (iA na.1 t) else a)
        = match (if ¬ na.1.startsWith "_" ∧ na.1 ∉ keysOf d.ns then
            some (na.1, iA na.1 t) else none) with
          | some kv => setKey a kv.1 kv.2
          | none => a
      by_cases hc : ¬ na.1.startsWith "_" ∧ na.1 ∉ keysOf d.ns
      · rw [if_pos hc, if_pos hc]
      · rw [if_neg hc, if_neg hc]
  have hstepV : ∀ (a : List (String × Field)) (ne : String × NsEntry),
      (match ne.2 with
        | NsEntry.blacklisted => a
        | NsEntry.value v =>
          if ¬ ne.1.startsWith "_" ∧ ne.1 ∉ classVarsOf d.annotations then
            setKey a ne.1 (iV ne.1 v (match getKey d.annotations ne.1 with
              | some (AnnEntry.ty t) => some t
              | _ => none))
          else a)
      = match (match ne.2 with
          | NsEntry.value v =>
            if ¬ ne.1.startsWith "_" ∧ ne.1 ∉ classVarsOf d.annotations then
              some (ne.1, iV ne.1 v (annTyOf d ne.1))
            else none
          | NsEntry.blacklisted => none) with
        | some kv => setKey a kv.1 kv.2
        | none => a := by
    intro a ne
    cases ne.2 with
    | blacklisted => rfl
    | value v =>
      show (if ¬ ne.1.startsWith "_" ∧ ne.1 ∉ classVarsOf d.annotations then
          setKey a ne.1 (iV ne.1 v (match getKey d.annotations ne.1 with
            | some (AnnEntry.ty t) => some t
            | _ => none))
        else a)
        = match (if ¬ ne.1.startsWith "_" ∧ ne.1 ∉ classVarsOf d.annotations then
            some (ne.1, iV ne.1 v (annTyOf d ne.1)) else none) with
          | some kv => setKey a kv.1 kv.2
          | none => a
      by_cases hc : ¬ ne.1.startsWith "_" ∧ ne.1 ∉ classVarsOf d.annotations
      · rw [if_pos hc, if_pos hc]
        rfl
      · rw [if_neg hc, if_neg hc]
  have h1 := foldl_optStep_eq_dictUpdate
    (fun na => match na.2 with
      | AnnEntry.ty t =>
        if ¬ na.1.startsWith "_" ∧ na.1 ∉ keysOf d.ns then some (na.1, iA na.1 t)
        else none
      | AnnEntry.classVar => none)
    (fun a na => match na.2 with
      | AnnEntry.classVar => a
      | AnnEntry.ty t =>
        if ¬ na.1.startsWith "_" ∧ na.1 ∉ keysOf d.ns then setKey a na.1 (iA na.1 t)
        else a)
    (fun a na => hstepA a na) d.annotations (d.baseFields.reverse.foldl dictUpdate [])
  have h2 := foldl_optStep_eq_dictUpdate
    (fun ne => match ne.2 with
      | NsEntry.value v =>
        if ¬ ne.1.startsWith "_" ∧ ne.1 ∉ classVarsOf d.annotations then
          some (ne.1, iV ne.1 v (annTyOf d ne.1))
        else none
      | NsEntry.blacklisted => none)
    (fun a ne => match ne.2 with
      | NsEntry.blacklisted => a
      | NsEntry.value v =>
        if ¬ ne.1.startsWith "_" ∧ ne.1 ∉ classVarsOf d.annotations then
          setKey a ne.1 (iV ne.1 v (match getKey d.annotations ne.1 with
            | some (AnnEntry.ty t) => some t
            | _ => none))
        else a)
    (fun a ne => hstepV a ne) d.ns
    (dictUpdate (d.baseFields.reverse.foldl dictUpdate []) (annDefs iA d))
  calc assembleFields iA iV d
      = d.ns.foldl
          (fun a ne => match ne.2 with
            | NsEntry.blacklisted => a
            | NsEntry.value v =>
              if ¬ ne.1.startsWith "_" ∧ ne.1 ∉ classVarsOf d.annotations then
                setKey a ne.1 (iV ne.1 v (match getKey d.annotations ne.1 with
                  | some (AnnEntry.ty t) => some t
                  | _ => none))
              else a)
          (d.annotations.foldl
            (fun a na => match na.2 with
              | AnnEntry.classVar => a
              | AnnEntry.ty t =>
                if ¬ na.1.startsWith "_" ∧ na.1 ∉ keysOf d.ns then
                  setKey a na.1 (iA na.1 t)
                else a)
            (d.baseFields.reverse.foldl dictUpdate [])) := rfl
    _ = d.ns.foldl
          (fun a ne => match ne.2 with
            | NsEntry.blacklisted => a
            | NsEntry.value v =>
              if ¬ ne.1.startsWith "_" ∧ ne.1 ∉ classVarsOf d.annotations then
                setKey a ne.1 (iV ne.1 v (match getKey d.annotations ne.1 with
                  | some (AnnEntry.ty t) => some t
                  | _ => none))
              else a)
          (dictUpdate (d.baseFields.reverse.foldl dictUpdate []) (annDefs iA d)) := by
        rw [h1]; rfl
    _ = dictUpdate
          (dictUpdate (d.baseFields.reverse.foldl dictUpdate []) (annDefs iA d))
          (valDefs iV d) := by
        rw [h2]; rfl

theorem keysOf_filterMap_sublist {β : Type} (g : (String × β) → Option (String × Field))
    (hg : ∀ x kv, g x = some kv → kv.1 = x.1) :
    ∀ l : List (String × β), List.Sublist (keysOf (l.filterMap g)) (keysOf l)
  | [] => List.Sublist.refl _
  | x :: t => by
    cases hgx : g x with
    | none =>
      rw [List.filterMap_cons_none hgx]
      exact (keysOf_filterMap_sublist g hg t).cons _
    | some kv =>
      rw [List.filterMap_cons_some hgx]
      show List.Sublist (kv.1 :: keysOf (t.filterMap g)) (x.1 :: keysOf t)
      rw [hg x kv hgx]
      exact (keysOf_filterMap_sublist g hg t).cons₂ _

theorem keysOf_annDefs_sublist (iA : String → Nat → Field) (d : ClassDecl) :
    List.Sublist (keysOf (annDefs iA d)) (keysOf d.annotations) := by
  unfold annDefs
  exact keysOf_filterMap_sublist _ (fun x kv h => by
    cases hx : x.2 with
    | classVar => simp [hx] at h
    | ty t =>
      simp only [hx] at h
      by_cases hc : ¬ x.1.startsWith "_" ∧ x.1 ∉ keysOf d.ns
      · rw [if_pos hc] at h
        rw [← Option.some.inj h]
      · rw [if_neg hc] at h
        exact absurd h (by simp)) d.annotations

theorem keysOf_valDefs_sublist (iV : String → Value → Option Nat → Field) (d : ClassDecl) :
    List.Sublist (keysOf (valDefs iV d)) (keysOf d.ns) := by
  unfold valDefs
  exact keysOf_filterMap_sublist _ (fun x kv h => by
    cases hx : x.2 with
    | blacklisted => simp [hx] at h
    | value v =>
      simp only [hx] at h
      by_cases hc : ¬ x.1.startsWith "_" ∧ x.1 ∉ classVarsOf d.annotations
      · rw [if_pos hc] at h
        rw [← Option.some.inj h]
      · rw [if_neg hc] at h
        exact absurd h (by simp)) d.ns

theorem mem_annDefs_of (iA : String → Nat → Field) (d : ClassDecl) (n : String) (t : Nat)
    (h : (n, AnnEntry.ty t) ∈ d.annotations)
    (h1 : ¬ n.startsWith "_") (h2 : n ∉ keysOf d.ns) :
    (n, iA n t) ∈ annDefs iA d :=
  List.mem_filterMap.mpr ⟨(n, AnnEntry.ty t), h, by simp [h1, h2]⟩

theorem mem_valDefs_of (iV : String → Value → Option Nat → Field) (d : ClassDecl)
    (n : String) (v : Value)
    (h : (n, NsEntry.value v) ∈ d.ns)
    (h1 : ¬ n.startsWith "_") (h2 : n ∉ classVarsOf d.annotations) :
    (n, iV n v (annTyOf d n)) ∈ valDefs iV d :=
  List.mem_filterMap.mpr ⟨(n, NsEntry.value v), h, by simp [h1, h2]⟩

theorem annDefs_not_in_ns (iA : String → Nat → Field) (d : ClassDecl) :
    ∀ k ∈ keysOf (annDefs iA d), k ∉ keysOf d.ns := by
  intro k hk
  rcases List.mem_map.mp hk with ⟨kv, hkv, rfl⟩
  rcases List.mem_filterMap.mp hkv with ⟨na, _, hg⟩
  cases hx : na.2 with
  | classVar => simp [hx] at hg
  | ty t =>
    simp only [hx] at hg
    by_cases hc : ¬ na.1.startsWith "_" ∧ na.1 ∉ keysOf d.ns
    · rw [if_pos hc] at hg
      rw [← Option.some.inj hg]
      exact hc.2
    · rw [if_neg hc] at hg
      exact absurd hg (by simp)

/-! ## Claim C4 -/

/-- C4: the assembled field table is ordered as: inherited fields first,
in first-occurrence order over the bases taken in reverse declaration
order; then the class's annotation-only fields in annotation order; then
its valued fields in namespace order — where a name already present is
replaced in place (it contributes no new key), and the entry stored for a
later-group name is that group's `Field.infer` result. -/
theorem metamodel_field_table_order (iA : String → Nat → Field)
    (iV : String → Value → Option Nat → Field) (d : ClassDecl)
    (hann : (keysOf d.annotations).Nodup)
    (hns : (keysOf d.ns).Nodup) :
    keysOf (assembleFields iA iV d)
      = keysOf (d.baseFields.reverse.foldl dictUpdate [])
        ++ (keysOf (annDefs iA d)).filter
            (fun k => ¬ k ∈ keysOf (d.baseFields.reverse.foldl dictUpdate []))
        ++ (keysOf (valDefs iV d)).filter
            (fun k => ¬ k ∈ keysOf (d.baseFields.reverse.foldl dictUpdate []))
    ∧ keysOf (d.baseFields.reverse.foldl dictUpdate [])
        = addKeys [] ((d.baseFields.reverse.map keysOf).flatten)
    ∧ (∀ n t, (n, AnnEntry.ty t) ∈ d.annotations → ¬ n.startsWith "_" →
        n ∉ keysOf d.ns → getKey (assembleFields iA iV d) n = some (iA n t))
    ∧ (∀ n v, (n, NsEntry.value v) ∈ d.ns → ¬ n.startsWith "_" →
        n ∉ classVarsOf d.annotations →
        getKey (assembleFields iA iV d) n = some (iV n v (annTyOf d n))) := by
  have hndA : (keysOf (annDefs iA d)).Nodup := (keysOf_annDefs_sublist iA d).nodup hann
  have hndV : (keysOf (valDefs iV d)).Nodup := (keysOf_valDefs_sublist iV d).nodup hns
  refine ⟨?_, ?_, ?_, ?_⟩
  · rw [assembleFields_eq, keysOf_dictUpdate, keysOf_dictUpdate,
      addKeys_nodup_eq _ _ hndA, addKeys_nodup_eq _ _ hndV, List.append_assoc,
      List.append_assoc]
    congr 2
    apply List.filter_congr
    intro k hk
    have hk_ns : k ∈ keysOf d.ns := (keysOf_valDefs_sublist iV d).subset hk
    have hkFA : k ∉ (keysOf (annDefs iA d)).filter
        (fun k => ¬ k ∈ keysOf (d.baseFields.reverse.foldl dictUpdate [])) := by
      intro hc
      exact annDefs_not_in_ns iA d k (List.mem_of_mem_filter hc) hk_ns
    refine decide_eq_decide.mpr (not_congr ?_)
    rw [List.mem_append]
    exact or_iff_left hkFA
  · exact keysOf_foldl_dictUpdate d.baseFields.reverse []
  · intro n t hm h1 h2
    have hin : (n, iA n t) ∈ annDefs iA d := mem_annDefs_of iA d n t hm h1 h2
    have hnV : n ∉ keysOf (valDefs iV d) :=
      fun hc => h2 ((keysOf_valDefs_sublist iV d).subset hc)
    rw [assembleFields_eq, getKey_dictUpdate_not_mem (valDefs iV d) _ n hnV,
      getKey_dictUpdate_mem (annDefs iA d) _ n (iA n t) hndA hin]
  · intro n v hm h1 h2
    have hin : (n, iV n v (annTyOf d n)) ∈ valDefs iV d :=
      mem_valDefs_of iV d n v hm h1 h2
    rw [assembleFields_eq, getKey_dictUpdate_mem (valDefs iV d) _ n _ hndV hin]

/-- Witness for C1's amended theorem at a concrete one-field schema with
the required field absent from the input. -/
theorem missing_required_exactly_one_error_witness :
    ("x", fieldReqX) ∈ modelPlain.fields
    ∧ (keysOf modelPlain.fields).Nodup
    ∧ (∀ p ∈ modelPlain.fields, p.2.isForwardRef = false)
    ∧ fieldReqX.required = true
    ∧ modelPlain.config.validate_all = false
    ∧ fieldReqX.validate_always = false
    ∧ lookupValue modelPlain.config [] fieldReqX = none
    ∧ (∀ p ∈ modelPlain.fields, p.2.alias_ = fieldReqX.alias_ → p = ("x", fieldReqX))
    ∧ (∀ p ∈ modelPlain.fields, collabNoMissingAt fieldReqX.alias_ p.2)
    ∧ ∃ vals errs, validate_model modelPlain [] false = VMOut.okPair vals (some errs)
        ∧ countMissingAt fieldReqX.alias_ errs = 1 :=
  ⟨List.mem_singleton.mpr rfl, by decide,
   fun p hp => by rcases List.mem_singleton.mp hp with rfl; rfl,
   rfl, rfl, rfl, rfl,
   fun p hp _ => List.mem_singleton.mp hp,
   fun p hp => by
     rcases List.mem_singleton.mp hp with rfl
     exact fun v vs loc => trivial,
   missing_required_exactly_one_error modelPlain [] "x" fieldReqX
     (List.mem_singleton.mpr rfl) (by decide)
     (fun p hp => by rcases List.mem_singleton.mp hp with rfl; rfl)
     rfl rfl rfl rfl
     (fun p hp _ => List.mem_singleton.mp hp)
     (fun p hp => by
       rcases List.mem_singleton.mp hp with rfl
       exact fun v vs loc => trivial)⟩

/-- Witness for C2 at a concrete forbid-policy model and an input with
two extra keys given in unsorted order. -/
theorem extra_forbid_sorted_errors_witness :
    modelForbidA.config.extra = Extra.forbid
    ∧ (∀ p ∈ modelForbidA.fields, p.2.isForwardRef = false)
    ∧ (keysOf inputZBA).Nodup
    ∧ (validate_model modelForbidA inputZBA false
        = VMOut.okPair (loopState modelForbidA inputZBA).values
            (if (finalState modelForbidA inputZBA).errors = [] then none
             else some (finalState modelForbidA inputZBA).errors)
      ∧ (finalState modelForbidA inputZBA).errors
          = (loopState modelForbidA inputZBA).errors
            ++ (sortedUnconsumed modelForbidA inputZBA).map
                (fun k => ErrorWrapper.mk ErrCause.extra k)
      ∧ List.Sorted (· ≤ ·) (sortedUnconsumed modelForbidA inputZBA)
      ∧ (sortedUnconsumed modelForbidA inputZBA).Nodup
      ∧ (∀ k, k ∈ sortedUnconsumed modelForbidA inputZBA
          ↔ k ∈ keysOf inputZBA ∧ k ∉ (loopState modelForbidA inputZBA).names_used)
      ∧ (∀ k ∈ sortedUnconsumed modelForbidA inputZBA,
          runF modelForbidA.config (eraseKey inputZBA k) modelForbidA.fields initState
            = loopState modelForbidA inputZBA)) :=
  ⟨rfl, fun p hp => by rcases List.mem_singleton.mp hp with rfl; rfl, by decide,
   extra_forbid_sorted_errors modelForbidA inputZBA rfl
     (fun p hp => by rcases List.mem_singleton.mp hp with rfl; rfl) (by decide)⟩

/-- Witness for C9 at a concrete forbid-policy model whose field's
collaborator rejects the matched value: the key is still consumed and no
`ExtraError` is appended at it. -/
theorem matched_key_consumed_no_extra_error_witness :
    modelForbidRej.config.extra ≠ Extra.ignore
    ∧ ("x", fieldRejX) ∈ modelForbidRej.fields
    ∧ matchedKey modelForbidRej.config [("x", Value.none_)] fieldRejX = some "x"
    ∧ ("x" ∈ (runF modelForbidRej.config [("x", Value.none_)] modelForbidRej.fields initState).names_used
      ∧ (finalState modelForbidRej [("x", Value.none_)]).errors
          = (runF modelForbidRej.config [("x", Value.none_)] modelForbidRej.fields initState).errors
            ++ extraErrorsOf modelForbidRej.config [("x", Value.none_)]
                (runF modelForbidRej.config [("x", Value.none_)] modelForbidRej.fields initState).names_used
      ∧ ∀ e ∈ extraErrorsOf modelForbidRej.config [("x", Value.none_)]
            (runF modelForbidRej.config [("x", Value.none_)] modelForbidRej.fields initState).names_used,
          e.loc ≠ "x") :=
  ⟨by decide, List.mem_singleton.mpr rfl, rfl,
   matched_key_consumed_no_extra_error modelForbidRej [("x", Value.none_)] "x" fieldRejX "x"
     (by decide) (List.mem_singleton.mpr rfl) rfl⟩

/-- Witness for C4 at a concrete class declaration with one base, one
annotation-only field, one class variable, one valued field and one
blacklisted namespace entry. -/
theorem metamodel_field_table_order_witness :
    (keysOf decl0.annotations).Nodup
    ∧ (keysOf decl0.ns).Nodup
    ∧ (keysOf (assembleFields inferA0 inferV0 decl0)
        = keysOf (decl0.baseFields.reverse.foldl dictUpdate [])
          ++ (keysOf (annDefs inferA0 decl0)).filter
              (fun k => ¬ k ∈ keysOf (decl0.baseFields.reverse.foldl dictUpdate []))
          ++ (keysOf (valDefs inferV0 decl0)).filter
              (fun k => ¬ k ∈ keysOf (decl0.baseFields.reverse.foldl dictUpdate []))
      ∧ keysOf (decl0.baseFields.reverse.foldl dictUpdate [])
          = addKeys [] ((decl0.baseFields.reverse.map keysOf).flatten)
      ∧ (∀ n t, (n, AnnEntry.ty t) ∈ decl0.annotations → ¬ n.startsWith "_" →
          n ∉ keysOf decl0.ns →
          getKey (assembleFields inferA0 inferV0 decl0) n = some (inferA0 n t))
      ∧ (∀ n v, (n, NsEntry.value v) ∈ decl0.ns → ¬ n.startsWith "_" →
          n ∉ classVarsOf decl0.annotations →
          getKey (assembleFields inferA0 inferV0 decl0) n
            = some (inferV0 n v (annTyOf decl0 n)))) :=
  ⟨by decide, by decide,
   metamodel_field_table_order inferA0 inferV0 decl0 (by decide) (by decide)⟩

/-! ## Claim C3 -/

/-- C3 counterexample: on a schema holding a field whose type is still an
unresolved forward reference, the engine raises a `ConfigError` even with
`raiseOnError=false` — it does not return the `(values, error-or-None)`
pair, so "never raises" is false as universally stated. -/
theorem validate_model_false_raises_configerror :
    validate_model modelFwd [] false
      = VMOut.configError ("field " ++ "y" ++ " not yet prepared and type is still a ForwardRef") :=
  rfl

/-- C3 (amended): for every schema none of whose fields is an unresolved
forward reference, and every input, `raise_exc=False` never raises: the
call returns the `(values, aggregatedError-or-None)` pair, with `None`
exactly when no errors were recorded. -/
theorem validate_model_false_never_raises (m : Model) (input : VMap)
    (hfw : ∀ p ∈ m.fields, p.2.isForwardRef = false) :
    ∃ vals oe, validate_model m input false = VMOut.okPair vals oe
      ∧ (oe = none ↔ (finalState m input).errors = [])
      ∧ (∀ es, oe = some es → es ≠ []) := by
  refine ⟨(finalState m input).values, _, validate_model_false_eq m input hfw, ?_, ?_⟩
  · by_cases h : (finalState m input).errors = [] <;> simp [h]
  · intro es hes
    by_cases h : (finalState m input).errors = []
    · rw [if_pos h] at hes
      exact absurd hes (by simp)
    · rw [if_neg h] at hes
      intro hnil
      exact h ((Option.some.inj hes).trans hnil)

/-- Witness for C3's amended theorem at a concrete schema and input. -/
theorem validate_model_false_never_raises_witness :
    (∀ p ∈ modelPlain.fields, p.2.isForwardRef = false)
    ∧ ∃ vals oe, validate_model modelPlain [] false = VMOut.okPair vals oe
        ∧ (oe = none ↔ (finalState modelPlain []).errors = [])
        ∧ (∀ es, oe = some es → es ≠ []) :=
  ⟨fun p hp => by rcases List.mem_singleton.mp hp with rfl; rfl,
   validate_model_false_never_raises modelPlain []
     (fun p hp => by rcases List.mem_singleton.mp hp with rfl; rfl)⟩

/-! ## Claim C1 (counterexample; amended theorem follows later) -/

/-- C1 counterexample: a required field absent from the input does not
make validation fail when `validate_all` is set — the engine validates a
deep copy of the default instead of recording a `MissingError`, and with
an accepting coercion collaborator validation succeeds outright. -/
theorem missing_required_validate_all_succeeds :
    validate_model modelValidateAll [] false
      = VMOut.okPair [("x", Value.none_)] none :=
  rfl

/-! ## Claim C5 -/

/-- C5 counterexample: `parse_file` wraps the decode collaborator in no
`try` block, so a decode failure (here a `ValueError`) propagates to the
caller raw instead of becoming an aggregated error at `__obj__`. -/
theorem parse_file_propagates_raw_decode_failure :
    parse_file modelEmpty (Except.error Exc.valueError)
        = ParseResult.raisedRaw Exc.valueError
    ∧ parse_file modelEmpty (Except.error Exc.valueError)
        ≠ ParseResult.raisedValidation
            [ErrorWrapper.mk (ErrCause.exc Exc.valueError) "__obj__"] :=
  ⟨rfl, fun h => ParseResult.noConfusion h⟩

/-- C5 (amended): `parse_raw` converts every decode failure of the caught
kinds (`ValueError`, `TypeError`, `UnicodeDecodeError`) into a single
aggregated error located at the sentinel root path `__obj__`, never
propagating it raw; `parse_file` propagates every decode failure raw. -/
theorem parse_raw_wraps_decode_failure (m : Model) (e : Exc)
    (hc : caughtExc e = true) :
    parse_raw m (Except.error e)
        = ParseResult.raisedValidation [ErrorWrapper.mk (ErrCause.exc e) "__obj__"]
    ∧ ∀ e2 : Exc, parse_file m (Except.error e2) = ParseResult.raisedRaw e2 := by
  constructor
  · simp [parse_raw, hc]
  · intro e2; rfl

/-- Witness for C5's amended theorem at a concrete model and exception. -/
theorem parse_raw_wraps_decode_failure_witness :
    caughtExc Exc.valueError = true
    ∧ (parse_raw modelEmpty (Except.error Exc.valueError)
          = ParseResult.raisedValidation
              [ErrorWrapper.mk (ErrCause.exc Exc.valueError) "__obj__"]
        ∧ ∀ e2 : Exc, parse_file modelEmpty (Except.error e2) = ParseResult.raisedRaw e2) :=
  ⟨rfl, parse_raw_wraps_decode_failure modelEmpty Exc.valueError rfl⟩

/-! ## Claim C6 -/

/-- C6: with `validate_assignment` enabled and mutation allowed, setting
a declared field re-validates that single field against
`self.dict(exclude={name})` (the rest of the current state, with the
field being set excluded); on a collaborator error the aggregated error
is surfaced and the entire stored mapping is unchanged, and on success
only that field's stored value is replaced. -/
theorem setattr_revalidates_single_field (m : Model) (vals : VMap) (n : String)
    (f : Field) (v : Value)
    (hf : getKey m.fields n = some f)
    (hmut : m.config.allow_mutation = true)
    (hva : m.config.validate_assignment = true) :
    (∀ e, f.validate v (dict_ vals none [n]) n = FieldResult.err e →
       setattr_ m vals n v = (SetOutcome.raisedValidation e, vals))
    ∧ (∀ v_, f.validate v (dict_ vals none [n]) n = FieldResult.ok v_ →
       setattr_ m vals n v = (SetOutcome.assigned, setKey vals n v_)
       ∧ getKey (setKey vals n v_) n = some v_
       ∧ (∀ k, k ≠ n → getKey (setKey vals n v_) k = getKey vals k)) := by
  have hguard : ¬ (m.config.extra ≠ Extra.allow ∧ n ∉ keysOf m.fields) :=
    fun hc => hc.2 (mem_keysOf_of_getKey hf)
  constructor
  · intro e he
    simp [setattr_, hguard, hmut, hva, hf, he]
  · intro v_ hok
    refine ⟨by simp [setattr_, hguard, hmut, hva, hf, hok], getKey_setKey_self vals n v_,
      fun k hk => getKey_setKey_ne vals n k v_ hk⟩

/-- Witness for C6 at a concrete model whose field's collaborator rejects
the assigned value. -/
theorem setattr_revalidates_single_field_witness :
    getKey modelAssign.fields "x" = some fieldRejX
    ∧ modelAssign.config.allow_mutation = true
    ∧ modelAssign.config.validate_assignment = true
    ∧ ((∀ e, fieldRejX.validate Value.none_ (dict_ [] none ["x"]) "x" = FieldResult.err e →
         setattr_ modelAssign [] "x" Value.none_ = (SetOutcome.raisedValidation e, []))
      ∧ (∀ v_, fieldRejX.validate Value.none_ (dict_ [] none ["x"]) "x" = FieldResult.ok v_ →
         setattr_ modelAssign [] "x" Value.none_ = (SetOutcome.assigned, setKey [] "x" v_)
         ∧ getKey (setKey [] "x" v_) "x" = some v_
         ∧ (∀ k, k ≠ "x" → getKey (setKey [] "x" v_) k = getKey [] k))) :=
  ⟨rfl, rfl, rfl,
   setattr_revalidates_single_field modelAssign [] "x" fieldRejX Value.none_ rfl rfl rfl⟩

/-! ## Claim C10 -/

/-- C10: with extra policy `allow`, mutation allowed and
`validate_assignment` enabled, assigning a name that is not a declared
field passes the unknown-field and immutability guards and then hits the
unguarded `self.fields[name]` lookup: the call fails with a raw key-lookup
error, not an unknown-field error and not an aggregated validation error,
leaving the stored mapping unchanged. -/
theorem setattr_unknown_field_allow_keyerror (m : Model) (vals : VMap) (n : String)
    (v : Value)
    (hex : m.config.extra = Extra.allow)
    (hmut : m.config.allow_mutation = true)
    (hva : m.config.validate_assignment = true)
    (hn : getKey m.fields n = none) :
    setattr_ m vals n v = (SetOutcome.raisedKeyError, vals) := by
  have hguard : ¬ (m.config.extra ≠ Extra.allow ∧ n ∉ keysOf m.fields) :=
    fun hc => hc.1 hex
  simp [setattr_, hguard, hmut, hva, hn]

/-- Witness for C10 at a concrete model and an undeclared name. -/
theorem setattr_unknown_field_allow_keyerror_witness :
    modelAllowVA.config.extra = Extra.allow
    ∧ modelAllowVA.config.allow_mutation = true
    ∧ modelAllowVA.config.validate_assignment = true
    ∧ getKey modelAllowVA.fields "zzz" = none
    ∧ setattr_ modelAllowVA [] "zzz" Value.none_ = (SetOutcome.raisedKeyError, []) :=
  ⟨rfl, rfl, rfl, rfl,
   setattr_unknown_field_allow_keyerror modelAllowVA [] "zzz" Value.none_ rfl rfl rfl rfl⟩

/-! ## Claim C7 -/

/-- C7: `copy()` with no arguments (`deep=False`) allocates a fresh
mapping object holding the same entries: the copy's `dict()` projection
equals the original's, the two instances' stored mappings are distinct
objects, and assigning a field on the copy leaves the original's stored
mapping untouched. -/
theorem copy_noargs_fresh_equal_mapping (h : Heap) (self : Nat) (hself : self < h.next) :
    dict_ ((copy_noargs h self).2.store (copy_noargs h self).1) none []
      = dict_ (h.store self) none []
    ∧ (copy_noargs h self).1 ≠ self
    ∧ ∀ (name : String) (v : Value),
        (setattr_store (copy_noargs h self).2 (copy_noargs h self).1 name v).store self
          = h.store self := by
  have hne : h.next ≠ self := fun hc => absurd (hc ▸ hself) (lt_irrefl _)
  refine ⟨?_, hne, ?_⟩
  · have hcontents : (copy_noargs h self).2.store (copy_noargs h self).1 = h.store self := by
      show (if h.next = h.next then h.store self else h.store h.next) = h.store self
      rw [if_pos rfl]
    rw [hcontents]
  · intro name v
    have h1 : (setattr_store (copy_noargs h self).2 (copy_noargs h self).1 name v).store self
        = (copy_noargs h self).2.store self := by
      show (if self = (copy_noargs h self).1 then _ else (copy_noargs h self).2.store self)
          = (copy_noargs h self).2.store self
      rw [if_neg (fun hc => hne hc.symm)]
    rw [h1]
    show (if self = h.next then h.store self else h.store self) = h.store self
    rw [if_neg (fun hc => hne hc.symm)]

/-- Witness for C7 at a concrete heap and instance. -/
theorem copy_noargs_fresh_equal_mapping_witness :
    (0 : Nat) < heap0.next
    ∧ (dict_ ((copy_noargs heap0 0).2.store (copy_noargs heap0 0).1) none []
          = dict_ (heap0.store 0) none []
        ∧ (copy_noargs heap0 0).1 ≠ 0
        ∧ ∀ (name : String) (v : Value),
            (setattr_store (copy_noargs heap0 0).2 (copy_noargs heap0 0).1 name v).store 0
              = heap0.store 0) :=
  ⟨by decide, copy_noargs_fresh_equal_mapping heap0 0 (by decide)⟩

/-! ## Claim C8 -/

/-- C8 counterexample: with both legacy flags present, `set_extra` emits
a single combined deprecation notice, not one notice per legacy flag
used (which would be two). -/
theorem set_extra_both_flags_single_warning :
    set_extra cfgBothFlags = SetExtraResult.ok Extra.allow [DepWarning.bothFlags]
    ∧ ¬ ([DepWarning.bothFlags].length = 2) :=
  ⟨by decide, by decide⟩

/-- C8 (amended): when either legacy boolean flag is present, the policy
is `allow` if `allow_extra` is true, else `ignore` if `ignore_extra` is
true or defaulted, else `forbid`, and exactly one deprecation notice is
emitted, naming the flag(s) used (a single combined notice when both are
present); with no legacy flag, `config.extra` is coerced into the
enumeration, any other value failing with an error naming it. -/
theorem set_extra_finalizes_policy (c : RawConfig) :
    (c.ignore_extra.isSome ∨ c.allow_extra.isSome →
      set_extra c = SetExtraResult.ok
        (if c.allow_extra.getD false then Extra.allow
         else if c.ignore_extra.getD true then Extra.ignore
         else Extra.forbid)
        [if c.ignore_extra.isSome ∧ c.allow_extra.isSome then DepWarning.bothFlags
         else if c.ignore_extra.isSome then DepWarning.ignoreFlag
         else DepWarning.allowFlag])
    ∧ (c.ignore_extra = none → c.allow_extra = none →
        (∀ e, extraOfString c.extra = some e → set_extra c = SetExtraResult.ok e [])
        ∧ (extraOfString c.extra = none →
            set_extra c = SetExtraResult.valueError c.extra)) := by
  constructor
  · intro hleg
    have hb : (c.ignore_extra.isSome || c.allow_extra.isSome) = true := by
      rcases hleg with h | h <;> simp [h]
    simp only [set_extra]
    rw [hb, if_pos rfl]
    cases hi : c.ignore_extra.isSome <;> cases ha : c.allow_extra.isSome <;>
      simp [hi, ha]
  · intro hi ha
    have hb : (c.ignore_extra.isSome || c.allow_extra.isSome) = false := by
      simp [hi, ha]
    constructor
    · intro e he
      simp only [set_extra]
      rw [hb]
      simp [he]
    · intro he
      simp only [set_extra]
      rw [hb]
      simp [he]

/-- Witness for C8's amended theorem at a concrete legacy configuration. -/
theorem set_extra_finalizes_policy_witness :
    ((cfgBothFlags.ignore_extra.isSome ∨ cfgBothFlags.allow_extra.isSome →
      set_extra cfgBothFlags = SetExtraResult.ok
        (if cfgBothFlags.allow_extra.getD false then Extra.allow
         else if cfgBothFlags.ignore_extra.getD true then Extra.ignore
         else Extra.forbid)
        [if cfgBothFlags.ignore_extra.isSome ∧ cfgBothFlags.allow_extra.isSome then
            DepWarning.bothFlags
         else if cfgBothFlags.ignore_extra.isSome then DepWarning.ignoreFlag
         else DepWarning.allowFlag])
    ∧ (cfgBothFlags.ignore_extra = none → cfgBothFlags.allow_extra = none →
        (∀ e, extraOfString cfgBothFlags.extra = some e →
            set_extra cfgBothFlags = SetExtraResult.ok e [])
        ∧ (extraOfString cfgBothFlags.extra = none →
            set_extra cfgBothFlags = SetExtraResult.valueError cfgBothFlags.extra))) :=
  set_extra_finalizes_policy cfgBothFlags

end Pydantic
